import Mathlib

set_option maxHeartbeats 1000000

/-!
Verification development for the framedrop asset-upload coordinator
(src/app/server.py).  The in-memory registry, the on-disk part store and
output area, the upload log, and the four request handlers that the claims
concern (`create_asset`, `upload_part`, `create_realtime_parts`,
`complete_realtime_upload`) together with the helpers `_assemble_file`,
`_prune_state` and `_scan_existing_uploads` are embedded as pure functions
on an explicit state.  Byte strings are lists of byte values; the HTTP layer
is abstracted to the parsed request fields each handler reads.  The auth
tables (`device_codes`, `tokens`) and the dashboard views are omitted: no
claim mentions them.  The fields `assembled` and `issued` of the state are
write-only instrumentation (which assets ran assembly, which part locators
were handed out); no handler reads them.
-/

abbrev Bytes := List Nat

/-- Association-list update with Python dict semantics: an existing key is
updated in place, a new key is appended at the end. -/
def setA [DecidableEq κ] : List (κ × β) → κ → β → List (κ × β)
  | [], k, v => [(k, v)]
  | (k', v') :: rest, k, v =>
      if k' = k then (k, v) :: rest else (k', v') :: setA rest k v

/-- Association-list lookup. -/
def getA [DecidableEq κ] : List (κ × β) → κ → Option β
  | [], _ => none
  | (k', v) :: rest, k => if k' = k then some v else getA rest k

/-- Association-list removal (Python `del` / `shutil.rmtree` of one key). -/
def eraseA [DecidableEq κ] : List (κ × β) → κ → List (κ × β)
  | [], _ => []
  | (k', v) :: rest, k => if k' = k then rest else (k', v) :: eraseA rest k

/-- Little-endian decimal digits of `n`, with explicit fuel (`fuel ≥ n`
suffices) so the kernel can evaluate it. -/
def toDigitsRev : Nat → Nat → List Nat
  | 0, _ => []
  | _, 0 => []
  | fuel + 1, n + 1 => ((n + 1) % 10) :: toDigitsRev fuel ((n + 1) / 10)

/-- Big-endian decimal digits of `n` (empty for `0`). -/
def decDigits (n : Nat) : List Nat := (toDigitsRev n n).reverse

/-- Value of a little-endian digit list. -/
def valLE : List Nat → Nat
  | [] => 0
  | d :: ds => d + 10 * valLE ds

/-- Value of a big-endian digit list. -/
def valBE (ds : List Nat) : Nat := ds.foldl (fun a d => a * 10 + d) 0

/-- ASCII codes of a digit list. -/
def digitCodes (ds : List Nat) : List Nat := ds.map (· + 48)

/-- Character codes of Python `f"{p:06d}"`, the staged-part filename: decimal
digits zero-padded to width 6, a leading minus sign (code 45) counting toward
the width. -/
def partName (p : Int) : List Nat :=
  if p < 0 then
    let ds := decDigits p.natAbs
    45 :: digitCodes (List.replicate (5 - ds.length) 0 ++ ds)
  else
    let ds := decDigits p.toNat
    digitCodes (List.replicate (6 - ds.length) 0 ++ ds)

/-- Lexicographic order on code lists: Python string `<` on filenames. -/
def lexLtB : List Nat → List Nat → Bool
  | [], [] => false
  | [], _ :: _ => true
  | _ :: _, [] => false
  | a :: as, b :: bs => if a < b then true else if a = b then lexLtB as bs else false

def nameLtB (p q : Int) : Bool := lexLtB (partName p) (partName q)

def nameLeB (p q : Int) : Bool := nameLtB p q || decide (partName p = partName q)

/-- Insertion step of insertion sort with a boolean `le`. -/
def insertLe (le : α → α → Bool) (x : α) : List α → List α
  | [] => [x]
  | y :: ys => if le x y then x :: y :: ys else y :: insertLe le x ys

/-- Insertion sort with a boolean `le`; models Python `sorted` (the part-store
keys it is applied to are pairwise distinct, so any correct sort agrees). -/
def sortLe (le : α → α → Bool) : List α → List α
  | [] => []
  | x :: xs => insertLe le x (sortLe le xs)

/-- `sorted(parts_dir.iterdir(), key=lambda p: p.name)`: staged parts in
lexicographic filename order. -/
def sortParts (l : List (Int × Bytes)) : List (Int × Bytes) :=
  sortLe (fun e f => nameLeB e.1 f.1) l

def zeroStr : String := "0"

def digitChar (d : Nat) : Char := Char.ofNat (48 + d)

/-- Decimal rendering of a natural number (Python `str(n)` / `f"{n}"`). -/
def natStr (n : Nat) : String :=
  if n = 0 then zeroStr else { data := (decDigits n).map digitChar }

def underscore : String := "_"

/-- Candidate output filename `f"{stem}_{counter}{suffix}"`. -/
def candName (stem sfx : String) (c : Nat) : String :=
  stem ++ underscore ++ natStr c ++ sfx

def dotChar : Char := '.'

/-- Index of the last dot of a filename that is neither leading nor trailing,
as in CPython `PurePath.suffix`. -/
def lastDotIdx (cs : List Char) : Option Nat :=
  (List.range cs.length).foldl
    (fun acc i =>
      if cs.getD i dotChar = dotChar ∧ 0 < i ∧ i + 1 < cs.length then some i else acc)
    none

/-- `Path(name).stem` and `Path(name).suffix`. -/
def splitName (nm : String) : String × String :=
  match lastDotIdx nm.data with
  | some i => ({ data := nm.data.take i }, { data := nm.data.drop i })
  | none => (nm, "")

/-- The `while output_path.exists()` loop of `_assemble_file`, with enough
fuel to scan past every existing file. -/
def resolveLoop (existing : List String) (stem sfx : String) : Nat → Nat → String
  | 0, c => candName stem sfx c
  | fuel + 1, c =>
      let cand := candName stem sfx c
      if cand ∈ existing then resolveLoop existing stem sfx fuel (c + 1) else cand

/-- Output-name collision resolution of `_assemble_file`: the name itself if
free, else `stem_1.sfx`, `stem_2.sfx`, ... until a free name is found. -/
def resolveName (existing : List String) (nm : String) : String :=
  if nm ∈ existing then
    let sp := splitName nm
    resolveLoop existing sp.1 sp.2 (existing.length + 1) 1
  else nm

def slashChar : Char := '/'

def unknownStem : String := "unknown_"

/-- Split a character list at every `/`. -/
def splitSlash : List Char → List (List Char)
  | [] => [[]]
  | c :: cs =>
      match splitSlash cs with
      | [] => [[]]
      | g :: gs => if c = slashChar then [] :: g :: gs else (c :: g) :: gs

/-- `Path(raw).name`: last path component, with empty and `.` components
dropped by path normalization. -/
def pyBaseName (s : String) : String :=
  { data := ((splitSlash s.data).filter (fun c => c ≠ [] ∧ c ≠ [dotChar])).getLastD [] }

/-- `Path(body.get("name", f"unknown_{asset_id}")).name or f"unknown_{asset_id}"`. -/
def sanitizeName (nameOpt : Option String) (id : String) : String :=
  let raw := nameOpt.getD (unknownStem ++ id)
  let base := pyBaseName raw
  if base = "" then unknownStem ++ id else base

def octetStream : String := "application/octet-stream"

def todayDir : String := "2026-10-12"

/-- One registry entry (`assets[asset_id]` dict); `created_at` is omitted
since no handler reads it. -/
structure Asset where
  name : String
  filesize : Option Nat
  filetype : String
  numParts : Nat
  partsReceived : List (Int × Nat)
  isRealtime : Bool
  complete : Bool
  nextRealtimePart : Option Nat
deriving Repr, DecidableEq

/-- One `upload_log` entry; the wall-clock timestamp is omitted. -/
structure LogEntry where
  name : String
  size : Nat
  directory : String
  typ : String
deriving Repr, DecidableEq

/-- The disk: staged parts keyed by asset id and part number (a key is
present exactly when the `.parts/<id>` directory exists), and the dated
output directory (all runs happen on one day). -/
structure FS where
  parts : List (String × List (Int × Bytes))
  outputs : List (String × Bytes)
deriving Repr, DecidableEq

/-- Global server state.  `assembled` and `issued` are write-only
instrumentation: the asset ids for which `_assemble_file` actually produced
an output, and the part locators handed out per asset. -/
structure ServerState where
  assets : List (String × Asset)
  uploadLog : List LogEntry
  fs : FS
  assembled : List String
  issued : List (String × List Nat)
deriving Repr, DecidableEq

/-- Parse outcome of the `part` query parameter: absent (Python defaults it
to `1`), present but not parseable by `int()`, or parseed to an integer. -/
inductive PartParam
  | missing
  | malformed
  | value (p : Int)
deriving Repr, DecidableEq

/-- `int(request.query_params.get("part", 1))`. -/
def parsePart : PartParam → Option Int
  | .missing => some 1
  | .malformed => none
  | .value p => some p

/-- The four API operations the claims concern. -/
inductive Op
  | createAsset (id : String) (name : Option String) (filesize : Option Nat)
      (filetype : Option String) (isRealtime : Bool)
  | uploadPart (id : String) (part : PartParam) (body : Bytes)
  | createRealtimeParts (id : String)
  | completeRealtime (id : String)
deriving Repr, DecidableEq

/-- Response: status code plus the part numbers of any returned upload URLs
(each URL is the stable locator asset id + part number). -/
structure Resp where
  code : Nat
  urls : List Nat
deriving Repr, DecidableEq

def CHUNK_SIZE : Nat := 25 * 1024 * 1024

/-- Part-count computation of `create_asset`.  Mirrors
`if filesize and not is_realtime`: Python truthiness makes a declared size of
`0` take the `else` branch. -/
def computeNumParts (filesize : Option Nat) (isRealtime : Bool) : Nat :=
  match filesize with
  | some s =>
      if s ≠ 0 ∧ isRealtime = false then
        min 4000 (max 1 ((s + CHUNK_SIZE - 1) / CHUNK_SIZE))
      else 1
  | none => 1

/-- `POST /v2/devices/assets` (`create_asset`). -/
def createAsset (st : ServerState) (id : String) (nameOpt : Option String)
    (filesize : Option Nat) (filetypeOpt : Option String) (isRealtime : Bool) :
    ServerState × Resp :=
  let name := sanitizeName nameOpt id
  let numParts := computeNumParts filesize isRealtime
  let urls := List.range' 1 numParts
  let a : Asset :=
    { name := name, filesize := filesize, filetype := filetypeOpt.getD octetStream,
      numParts := numParts, partsReceived := [], isRealtime := isRealtime,
      complete := false, nextRealtimePart := none }
  ({ st with assets := setA st.assets id a, issued := setA st.issued id urls },
   { code := 200, urls := urls })

/-- `POST /v2/devices/assets/{id}/realtime-upload-parts`
(`create_realtime_parts`). -/
def createRealtimeParts (st : ServerState) (id : String) : ServerState × Resp :=
  match getA st.assets id with
  | none => (st, { code := 404, urls := [] })
  | some a =>
      let nextPart := a.nextRealtimePart.getD (a.numParts + 1)
      let urls := List.range' nextPart 5
      let a' := { a with nextRealtimePart := some (nextPart + 5),
                         numParts := nextPart + 5 - 1 }
      ({ st with assets := setA st.assets id a',
                 issued := setA st.issued id ((getA st.issued id).getD [] ++ urls) },
       { code := 200, urls := urls })

/-- `_prune_state`, restricted to the registry (the auth-table bounding has
no claim about it): every completed asset is deleted. -/
def pruneState (st : ServerState) : ServerState :=
  { st with assets := st.assets.filter (fun e => e.2.complete = false) }

def mkLogEntry (name : String) (size : Nat) (typ : String) : LogEntry :=
  { name := name, size := size, directory := todayDir, typ := typ }

/-- `_assemble_file`: no-op if the asset is unknown (the handlers only call
it with known ids), already complete, or has no staged-parts directory;
otherwise pick a collision-free output name, concatenate the staged parts in
filename order, delete the staging directory, set `complete`, push a log
entry on the front of the log bounded to 500, and prune. -/
def assembleFile (st : ServerState) (id : String) : ServerState :=
  match getA st.assets id with
  | none => st
  | some a =>
      if a.complete then st
      else
        match getA st.fs.parts id with
        | none => st
        | some dir =>
            let outName := resolveName (st.fs.outputs.map Prod.fst) a.name
            let content := ((sortParts dir).map Prod.snd).flatten
            let fs' : FS := { parts := eraseA st.fs.parts id,
                              outputs := st.fs.outputs ++ [(outName, content)] }
            let a' := { a with complete := true }
            let log' := (mkLogEntry outName content.length a.filetype :: st.uploadLog).take 500
            pruneState
              { st with assets := setA st.assets id a', fs := fs',
                        uploadLog := log', assembled := st.assembled ++ [id] }

/-- Write the streamed body as the staged file for `(id, part)`; the
directory entry is created on first write. -/
def stagePart (fs : FS) (id : String) (p : Int) (body : Bytes) : FS :=
  { fs with parts := setA fs.parts id (setA ((getA fs.parts id).getD []) p body) }

/-- `PUT /upload/{asset_id}` (`upload_part`). -/
def uploadPart (st : ServerState) (id : String) (pp : PartParam) (body : Bytes) :
    ServerState × Resp :=
  match parsePart pp with
  | none => (st, { code := 400, urls := [] })
  | some p =>
      match getA st.assets id with
      | none => (st, { code := 404, urls := [] })
      | some a =>
          let fs' := stagePart st.fs id p body
          let a' := { a with partsReceived := setA a.partsReceived p body.length }
          let st' := { st with fs := fs', assets := setA st.assets id a' }
          if a.isRealtime = false ∧ a'.partsReceived.length ≥ a.numParts then
            (assembleFile st' id, { code := 200, urls := [] })
          else (st', { code := 200, urls := [] })

/-- `POST /upload/{asset_id}/complete` (`complete_realtime_upload`): note the
unconditional 200 response, even for unknown assets. -/
def completeRealtime (st : ServerState) (id : String) : ServerState × Resp :=
  match getA st.assets id with
  | none => (st, { code := 200, urls := [] })
  | some a =>
      let a' := { a with numParts := a.partsReceived.length }
      let st' := { st with assets := setA st.assets id a' }
      (assembleFile st' id, { code := 200, urls := [] })

def step (st : ServerState) : Op → ServerState × Resp
  | .createAsset id nm fsz ft rt => createAsset st id nm fsz ft rt
  | .uploadPart id pp body => uploadPart st id pp body
  | .createRealtimeParts id => createRealtimeParts st id
  | .completeRealtime id => completeRealtime st id

def run (st : ServerState) : List Op → ServerState
  | [] => st
  | op :: ops => run (step st op).1 ops

/-- A file found on disk at startup. -/
structure DiskFile where
  name : String
  content : Bytes
  mtime : Nat
deriving Repr, DecidableEq

/-- `_scan_existing_uploads`: pre-existing files sorted by modification time
descending, the 500 most recent seeding the (empty) upload log. -/
def scanLog (files : List DiskFile) : List LogEntry :=
  ((sortLe (fun f g => decide (g.mtime ≤ f.mtime)) files).take 500).map
    (fun f => { name := f.name, size := f.content.length, directory := "", typ := "" })

/-- Server state right after startup: empty registry (so
`_cleanup_stale_parts` has removed every staged-parts directory), the
pre-existing output files on disk, and the log seeded by the scan. -/
def initState (files : List DiskFile) : ServerState :=
  { assets := [], uploadLog := scanLog files,
    fs := { parts := [], outputs := files.map (fun f => (f.name, f.content)) },
    assembled := [], issued := [] }

/-! ### Basic association-list lemmas -/

theorem getA_setA_self [DecidableEq κ] (m : List (κ × β)) (k : κ) (v : β) :
    getA (setA m k v) k = some v := by
  induction m with
  | nil => simp [setA, getA]
  | cons e rest ih =>
      obtain ⟨k', v'⟩ := e
      by_cases h : k' = k <;> simp [setA, getA, h, ih]

theorem getA_setA_ne [DecidableEq κ] (m : List (κ × β)) (k k' : κ) (v : β)
    (h : k' ≠ k) : getA (setA m k v) k' = getA m k' := by
  have hks : ¬k = k' := fun e => h e.symm
  induction m with
  | nil => simp [setA, getA, hks]
  | cons e rest ih =>
      obtain ⟨k₀, v₀⟩ := e
      by_cases h0 : k₀ = k
      · subst h0
        simp [setA, getA, hks]
      · simp [setA, getA, h0, ih]

theorem mem_setA [DecidableEq κ] {m : List (κ × β)} {k : κ} {v : β} {e : κ × β}
    (h : e ∈ setA m k v) : e ∈ m ∨ e = (k, v) := by
  induction m with
  | nil => simp [setA] at h; simp [h]
  | cons f rest ih =>
      obtain ⟨k₀, v₀⟩ := f
      by_cases h0 : k₀ = k
      · subst h0
        simp [setA] at h
        rcases h with h | h
        · right; simp [h]
        · left; simp [h]
      · simp [setA, h0] at h
        rcases h with h | h
        · left; simp [h]
        · rcases ih h with h1 | h1
          · left; simp [h1]
          · right; exact h1

theorem getA_mem [DecidableEq κ] {m : List (κ × β)} {k : κ} {v : β}
    (h : getA m k = some v) : (k, v) ∈ m := by
  induction m with
  | nil => simp [getA] at h
  | cons e rest ih =>
      obtain ⟨k₀, v₀⟩ := e
      by_cases h0 : k₀ = k
      · subst h0
        simp [getA] at h
        simp [h]
      · simp [getA, h0] at h
        simp [ih h]

theorem run_append (st : ServerState) (l l' : List Op) :
    run st (l ++ l') = run (run st l) l' := by
  induction l generalizing st with
  | nil => rfl
  | cons op ops ih => simp [run, ih]

/-! ### The registry never holds a completed asset (pruning removes them in
the same step that sets the flag) -/

def allIncomplete (st : ServerState) : Prop :=
  ∀ e ∈ st.assets, e.2.complete = false

theorem allIncomplete_pruneState (st : ServerState) :
    allIncomplete (pruneState st) := by
  intro e he
  simp [pruneState] at he
  exact he.2

theorem allIncomplete_assembleFile {st : ServerState} (h : allIncomplete st)
    (id : String) : allIncomplete (assembleFile st id) := by
  unfold assembleFile
  cases hA : getA st.assets id with
  | none => exact h
  | some a =>
      by_cases hc : a.complete
      · simpa [hc] using h
      · cases hD : getA st.fs.parts id with
        | none => simpa [hc, hD] using h
        | some dir => simpa [hc, hD] using allIncomplete_pruneState _

theorem allIncomplete_step {st : ServerState} (h : allIncomplete st) (op : Op) :
    allIncomplete (step st op).1 := by
  cases op with
  | createAsset id nm fsz ft rt =>
      intro e he
      simp only [step, createAsset] at he
      rcases mem_setA he with h1 | h1
      · exact h e h1
      · simp [h1]
  | uploadPart id pp body =>
      simp only [step, uploadPart]
      cases hp : parsePart pp with
      | none => exact h
      | some p =>
          cases hA : getA st.assets id with
          | none => exact h
          | some a =>
              have ha : a.complete = false := h _ (getA_mem hA)
              have hst' : allIncomplete
                  { st with fs := stagePart st.fs id p body,
                            assets := setA st.assets id
                              ({ a with partsReceived := setA a.partsReceived p body.length }) } := by
                intro e he
                rcases mem_setA he with h1 | h1
                · exact h e h1
                · simp [h1, ha]
              by_cases hr : a.isRealtime = false ∧
                  (setA a.partsReceived p body.length).length ≥ a.numParts
              · simpa [hr] using allIncomplete_assembleFile hst' id
              · simpa [hr] using hst'
  | createRealtimeParts id =>
      simp only [step, createRealtimeParts]
      cases hA : getA st.assets id with
      | none => exact h
      | some a =>
          intro e he
          simp only at he
          rcases mem_setA he with h1 | h1
          · exact h e h1
          · have ha : a.complete = false := h _ (getA_mem hA)
            simp [h1, ha]
  | completeRealtime id =>
      simp only [step, completeRealtime]
      cases hA : getA st.assets id with
      | none => exact h
      | some a =>
          have ha : a.complete = false := h _ (getA_mem hA)
          have hst' : allIncomplete
              { st with assets := setA st.assets id { a with numParts := a.partsReceived.length } } := by
            intro e he
            rcases mem_setA he with h1 | h1
            · exact h e h1
            · simp [h1, ha]
          simpa using allIncomplete_assembleFile hst' id

theorem allIncomplete_run (st : ServerState) (h : allIncomplete st) (ops : List Op) :
    allIncomplete (run st ops) := by
  induction ops generalizing st with
  | nil => exact h
  | cons op ops ih => exact ih _ (allIncomplete_step h op)

theorem allIncomplete_initState (files : List DiskFile) :
    allIncomplete (initState files) := by
  intro e he
  simp [initState] at he

/-! ### Concrete names used by scenario theorems -/

def aId : String := "a"

def bId : String := "b"

def xId : String := "x"

def clipStr : String := "clip.mov"

/-! ### C2: the expected-part formula -/

theorem chunkSize_pos : 0 < CHUNK_SIZE := by norm_num [CHUNK_SIZE]

theorem specCeil_ex (S : Nat) : ∃ m, S ≤ m * CHUNK_SIZE :=
  ⟨S, Nat.le_mul_of_pos_right S chunkSize_pos⟩

/-- Specification-side `ceil(S / C)` for `C = CHUNK_SIZE`: the least `m` with
`S ≤ m * C`. -/
def specCeil (S : Nat) : Nat := Nat.find (specCeil_ex S)

/-- The claim's formula: `min(4000, max(1, ceil(S/C)))` for a batch asset
with a declared size; `1` when no size is declared or the mode is realtime. -/
def specExpectedParts (filesize : Option Nat) (isRealtime : Bool) : Nat :=
  match filesize, isRealtime with
  | some S, false => min 4000 (max 1 (specCeil S))
  | _, _ => 1

theorem specCeil_eq_div (S : Nat) : specCeil S = (S + CHUNK_SIZE - 1) / CHUNK_SIZE := by
  rw [specCeil, Nat.find_eq_iff]
  constructor
  · show S ≤ (S + CHUNK_SIZE - 1) / CHUNK_SIZE * CHUNK_SIZE
    simp only [CHUNK_SIZE]
    omega
  · intro m hm
    simp only [CHUNK_SIZE] at hm ⊢
    omega

theorem computeNumParts_eq_spec (fsz : Option Nat) (rt : Bool) :
    computeNumParts fsz rt = specExpectedParts fsz rt := by
  cases fsz with
  | none => cases rt <;> rfl
  | some S =>
      cases rt with
      | true => simp [computeNumParts, specExpectedParts]
      | false =>
          by_cases h : S = 0
          · subst h
            have h0 : specCeil 0 = 0 := by
              rw [specCeil_eq_div]
              simp only [CHUNK_SIZE]
            simp [computeNumParts, specExpectedParts, h0]
          · simp [computeNumParts, specExpectedParts, h, specCeil_eq_div]

/-- C2: an asset created in batch mode with declared size `S` gets
`expected_parts = min(4000, max(1, ceil(S/C)))` with `C` the 25 MiB chunk
size; with no declared size or in realtime mode it gets `expected_parts = 1`;
and in every case the creation response returns exactly `expected_parts`
upload locators, one per part number `1..expected_parts`. -/
theorem c2_theorem (st : ServerState) (id : String) (nm : Option String)
    (fsz : Option Nat) (ft : Option String) (rt : Bool) :
    (∀ a, getA (createAsset st id nm fsz ft rt).1.assets id = some a →
        a.numParts = specExpectedParts fsz rt) ∧
    (createAsset st id nm fsz ft rt).2.urls = List.range' 1 (specExpectedParts fsz rt) ∧
    ((createAsset st id nm fsz ft rt).2.urls).length = specExpectedParts fsz rt := by
  refine ⟨?_, ?_, ?_⟩
  · intro a ha
    simp only [createAsset, getA_setA_self, Option.some.injEq] at ha
    rw [← ha]
    exact computeNumParts_eq_spec fsz rt
  · simp [createAsset, computeNumParts_eq_spec]
  · simp [createAsset, computeNumParts_eq_spec]

def sixtyMB : Nat := 60000000

theorem c2_witness :
    specExpectedParts (some sixtyMB) false = 3 ∧
    (createAsset (initState []) aId (some clipStr) (some sixtyMB) none false).2.urls
      = [1, 2, 3] := by
  have h := c2_theorem (initState []) aId (some clipStr) (some sixtyMB) none false
  have h3 : specExpectedParts (some sixtyMB) false = 3 := by
    rw [← h.2.2]; decide
  exact ⟨h3, by rw [h.2.1, h3]; decide⟩

/-! ### C4: handling of unknown asset ids -/

/-- C4 counterexample: the claim says the realtime completion signal returns
a not-found response for an unknown asset id, but
`complete_realtime_upload` answers 200 for the unknown id `x` on a fresh
server. -/
theorem c4_counterexample :
    (completeRealtime (initState []) xId).2.code = 200 ∧
    ¬(completeRealtime (initState []) xId).2.code = 404 ∧
    getA (initState ([] : List DiskFile)).assets xId = none := by decide

/-- C4 (amended): with an unknown asset id, a part upload whose part number
parses (or is absent) returns 404, a malformed part number returns 400
before the id is consulted, a realtime extension request returns 404, and
the realtime completion signal returns a generic 200; in every case the
state is unchanged. -/
theorem c4_theorem (st : ServerState) (id : String) (p : Int) (body : Bytes)
    (h : getA st.assets id = none) :
    uploadPart st id (.value p) body = (st, { code := 404, urls := [] }) ∧
    uploadPart st id .missing body = (st, { code := 404, urls := [] }) ∧
    uploadPart st id .malformed body = (st, { code := 400, urls := [] }) ∧
    createRealtimeParts st id = (st, { code := 404, urls := [] }) ∧
    completeRealtime st id = (st, { code := 200, urls := [] }) := by
  refine ⟨?_, ?_, ?_, ?_, ?_⟩ <;>
    simp [uploadPart, createRealtimeParts, completeRealtime, parsePart, h]

theorem c4_witness :
    uploadPart (initState []) xId (.value 1) [7] = (initState [], { code := 404, urls := [] }) ∧
    uploadPart (initState []) xId .missing [7] = (initState [], { code := 404, urls := [] }) ∧
    uploadPart (initState []) xId .malformed [7] = (initState [], { code := 400, urls := [] }) ∧
    createRealtimeParts (initState []) xId = (initState [], { code := 404, urls := [] }) ∧
    completeRealtime (initState []) xId = (initState [], { code := 200, urls := [] }) :=
  c4_theorem (initState []) xId 1 [7] (by decide)

/-! ### C5: when a part upload is rejected as malformed -/

/-- C5 counterexample: the claim says a part upload fails exactly when the
part number is not a positive integer, but `upload_part` accepts part
numbers `0` and `-2` (status 200) on a known asset. -/
theorem c5_counterexample :
    (uploadPart (createAsset (initState []) aId (some clipStr) none none false).1 aId
        (PartParam.value 0) [9]).2.code = 200 ∧
    ¬(0 : Int) > 0 ∧
    (uploadPart (createAsset (initState []) aId (some clipStr) none none false).1 aId
        (PartParam.value (-2)) [9]).2.code = 200 ∧
    ¬(-2 : Int) > 0 := by decide

/-- C5 (amended): a part upload fails with 400 if and only if the part
parameter is present but not parseable as an integer (any parseable integer,
positive or not, is accepted), and on that failure the state is unchanged. -/
theorem c5_theorem (st : ServerState) (id : String) (pp : PartParam) (body : Bytes) :
    ((uploadPart st id pp body).2.code = 400 ↔ parsePart pp = none) ∧
    (parsePart pp = none → uploadPart st id pp body = (st, { code := 400, urls := [] })) := by
  cases hp : parsePart pp with
  | none => simp [uploadPart, hp]
  | some p =>
      cases hA : getA st.assets id with
      | none => simp [uploadPart, hp, hA]
      | some a =>
          simp only [uploadPart, hp, hA]
          by_cases hr : a.isRealtime = false ∧
              (setA a.partsReceived p body.length).length ≥ a.numParts <;>
            simp [hr]

theorem c5_witness :
    ((uploadPart (initState []) aId .malformed [7]).2.code = 400 ↔
      parsePart .malformed = none) ∧
    (parsePart .malformed = none →
      uploadPart (initState []) aId .malformed [7] = (initState [], { code := 400, urls := [] })) :=
  c5_theorem (initState []) aId .malformed [7]

/-! ### C6: uploads after completion -/

def c6Asset : Asset :=
  { name := clipStr, filesize := none, filetype := octetStream, numParts := 1,
    partsReceived := [], isRealtime := false, complete := true, nextRealtimePart := none }

def c6State : ServerState :=
  { assets := [(aId, c6Asset)], uploadLog := [], fs := { parts := [], outputs := [] },
    assembled := [], issued := [] }

/-- C6 counterexample: `upload_part` never checks the `complete` flag.  On a
registry state holding an asset with `complete = true`, a part upload stages
the part and mutates the asset's `parts_received`, contradicting the claimed
silent no-op. -/
theorem c6_counterexample :
    (getA (uploadPart c6State aId (PartParam.value 1) [5, 5]).1.assets aId).map
        Asset.partsReceived = some [(1, 2)] ∧
    (getA c6State.assets aId).map Asset.partsReceived = some [] ∧
    c6Asset.complete = true ∧
    (uploadPart c6State aId (PartParam.value 1) [5, 5]).1.fs.parts ≠ c6State.fs.parts := by
  decide

/-- C6 (amended): the code protects against late deliveries by pruning, не
by checking the flag: in every state reachable from startup, no registry
entry has `complete` set (the assembler sets the flag and the pruner removes
the entry in the same step), so the claimed situation never arises and a
late delivery for an assembled asset is rejected as not-found instead. -/
theorem c6_theorem (files : List DiskFile) (ops : List Op) (id : String) (a : Asset)
    (h : getA (run (initState files) ops).assets id = some a) :
    a.complete = false :=
  allIncomplete_run (initState files) (allIncomplete_initState files) ops (id, a) (getA_mem h)

def c6WitAsset : Asset :=
  { name := clipStr, filesize := none, filetype := octetStream, numParts := 1,
    partsReceived := [], isRealtime := false, complete := false, nextRealtimePart := none }

theorem c6_witness :
    getA (run (initState []) [Op.createAsset bId (some clipStr) none none false]).assets bId
        = some c6WitAsset ∧ c6WitAsset.complete = false :=
  ⟨by decide,
   c6_theorem [] [Op.createAsset bId (some clipStr) none none false] bId c6WitAsset (by decide)⟩

/-! ### Decimal digits: values, bounds, injectivity -/

theorem valLE_toDigitsRev (fuel : Nat) : ∀ n : Nat, n ≤ fuel →
    valLE (toDigitsRev fuel n) = n := by
  induction fuel with
  | zero => intro n hn; interval_cases n; rfl
  | succ f ih =>
      intro n hn
      cases n with
      | zero => rfl
      | succ m =>
          have hdiv : (m + 1) / 10 ≤ f := by
            have h1 : (m + 1) / 10 < m + 1 := Nat.div_lt_self (Nat.succ_pos m) (by omega)
            omega
          simp only [toDigitsRev, valLE, ih _ hdiv]
          omega

theorem foldl_val (l : List Nat) : ∀ a : Nat,
    l.foldl (fun x d => x * 10 + d) a = a * 10 ^ l.length + valBE l := by
  induction l with
  | nil => intro a; simp [valBE]
  | cons d ds ih =>
      intro a
      have hd : valBE (d :: ds) = d * 10 ^ ds.length + valBE ds := by
        show List.foldl _ (0 * 10 + d) ds = _
        rw [ih (0 * 10 + d)]
        ring_nf
      simp only [List.foldl_cons, List.length_cons, hd, ih (a * 10 + d)]
      ring

theorem valBE_cons (d : Nat) (ds : List Nat) :
    valBE (d :: ds) = d * 10 ^ ds.length + valBE ds := by
  show List.foldl _ (0 * 10 + d) ds = _
  rw [foldl_val]
  ring_nf

theorem valBE_append_singleton (l : List Nat) (d : Nat) :
    valBE (l ++ [d]) = valBE l * 10 + d := by
  simp only [valBE, List.foldl_append, List.foldl_cons, List.foldl_nil]

theorem valBE_reverse (l : List Nat) : valBE l.reverse = valLE l := by
  induction l with
  | nil => rfl
  | cons d ds ih =>
      simp only [List.reverse_cons, valBE_append_singleton, ih, valLE]
      ring

theorem valBE_decDigits (n : Nat) : valBE (decDigits n) = n := by
  rw [decDigits, valBE_reverse, valLE_toDigitsRev n n le_rfl]

theorem valBE_replicate_zero (k : Nat) (ds : List Nat) :
    valBE (List.replicate k 0 ++ ds) = valBE ds := by
  induction k with
  | zero => rfl
  | succ m ih =>
      simp only [List.replicate_succ, List.cons_append, valBE_cons] at *
      simpa using ih

theorem toDigitsRev_lt_ten (fuel : Nat) : ∀ n : Nat, ∀ d ∈ toDigitsRev fuel n, d < 10 := by
  induction fuel with
  | zero => intro n d hd; simp [toDigitsRev] at hd
  | succ f ih =>
      intro n d hd
      cases n with
      | zero => simp [toDigitsRev] at hd
      | succ m =>
          simp only [toDigitsRev, List.mem_cons] at hd
          rcases hd with h | h
          · omega
          · exact ih _ _ h

theorem decDigits_lt_ten (n : Nat) : ∀ d ∈ decDigits n, d < 10 := by
  intro d hd
  rw [decDigits, List.mem_reverse] at hd
  exact toDigitsRev_lt_ten n n d hd

theorem toDigitsRev_length_le (fuel : Nat) : ∀ n k : Nat, n ≤ fuel → n < 10 ^ k →
    (toDigitsRev fuel n).length ≤ k := by
  induction fuel with
  | zero =>
      intro n k hn hk
      interval_cases n
      simp [toDigitsRev]
  | succ f ih =>
      intro n k hn hk
      cases n with
      | zero => simp [toDigitsRev]
      | succ m =>
          cases k with
          | zero => simp at hk
          | succ j =>
              have hdiv : (m + 1) / 10 ≤ f := by
                have h1 : (m + 1) / 10 < m + 1 := Nat.div_lt_self (Nat.succ_pos m) (by omega)
                omega
              have hlt : (m + 1) / 10 < 10 ^ j := by
                rw [Nat.div_lt_iff_lt_mul (by omega : 0 < 10)]
                calc m + 1 < 10 ^ (j + 1) := hk
                  _ = 10 ^ j * 10 := by rw [pow_succ]
              simpa [toDigitsRev] using ih _ j hdiv hlt

theorem decDigits_length_le (n k : Nat) (h : n < 10 ^ k) : (decDigits n).length ≤ k := by
  rw [decDigits, List.length_reverse]
  exact toDigitsRev_length_le n n k le_rfl h

theorem valBE_lt (l : List Nat) (h : ∀ d ∈ l, d < 10) : valBE l < 10 ^ l.length := by
  induction l with
  | nil => simp [valBE]
  | cons d ds ih =>
      have hds : valBE ds < 10 ^ ds.length := ih fun x hx => h x (List.mem_cons_of_mem d hx)
      have hd : d < 10 := h d (List.mem_cons_self d ds)
      calc valBE (d :: ds) = d * 10 ^ ds.length + valBE ds := valBE_cons d ds
        _ < d * 10 ^ ds.length + 10 ^ ds.length := by omega
        _ = (d + 1) * 10 ^ ds.length := by ring
        _ ≤ 10 * 10 ^ ds.length := Nat.mul_le_mul_right _ (by omega)
        _ = 10 ^ (ds.length + 1) := by ring

/-! ### Lexicographic filename order vs numeric part order -/

theorem lexLtB_cons (a b : Nat) (as bs : List Nat) :
    lexLtB (a :: as) (b :: bs)
      = if a < b then true else if a = b then lexLtB as bs else false := rfl

theorem lexLtB_digitCodes (l₁ : List Nat) : ∀ l₂ : List Nat,
    lexLtB (digitCodes l₁) (digitCodes l₂) = lexLtB l₁ l₂ := by
  induction l₁ with
  | nil => intro l₂; cases l₂ <;> simp [digitCodes, lexLtB]
  | cons d ds ih =>
      intro l₂
      cases l₂ with
      | nil => simp [digitCodes, lexLtB]
      | cons e es =>
          simp only [digitCodes, List.map_cons]
          rw [lexLtB_cons, lexLtB_cons]
          have h48lt : (d + 48 < e + 48) = (d < e) := propext (by omega)
          have h48eq : (d + 48 = e + 48) = (d = e) := propext (by omega)
          simp only [h48lt, h48eq]
          by_cases hlt : d < e
          · simp [hlt]
          · by_cases heq : d = e
            · simpa [hlt, heq, digitCodes] using ih es
            · simp [hlt, heq]

theorem digit_block_lt {d e x y L : Nat} (hlt : d < e) (hx : x < 10 ^ L) :
    d * 10 ^ L + x < e * 10 ^ L + y := by
  calc d * 10 ^ L + x < d * 10 ^ L + 10 ^ L := by omega
    _ = (d + 1) * 10 ^ L := by ring
    _ ≤ e * 10 ^ L := Nat.mul_le_mul_right _ (by omega)
    _ ≤ e * 10 ^ L + y := Nat.le_add_right _ _

theorem lexLtB_iff_valBE (l₁ : List Nat) : ∀ l₂ : List Nat, l₁.length = l₂.length →
    (∀ d ∈ l₁, d < 10) → (∀ d ∈ l₂, d < 10) →
    (lexLtB l₁ l₂ = true ↔ valBE l₁ < valBE l₂) := by
  induction l₁ with
  | nil =>
      intro l₂ hlen _ _
      cases l₂ with
      | nil => simp [lexLtB]
      | cons e es => simp at hlen
  | cons d ds ih =>
      intro l₂ hlen h1 h2
      cases l₂ with
      | nil => simp at hlen
      | cons e es =>
          have hlen' : ds.length = es.length := by simpa using hlen
          have hds : ∀ x ∈ ds, x < 10 := fun x hx => h1 x (List.mem_cons_of_mem d hx)
          have hes : ∀ x ∈ es, x < 10 := fun x hx => h2 x (List.mem_cons_of_mem e hx)
          have hvd : valBE ds < 10 ^ ds.length := valBE_lt ds hds
          have hve : valBE es < 10 ^ es.length := valBE_lt es hes
          have hve' : valBE es < 10 ^ ds.length := by rw [hlen']; exact hve
          rw [lexLtB_cons, valBE_cons, valBE_cons, ← hlen']
          by_cases hlt : d < e
          · simp only [hlt, if_true, true_iff]
            exact digit_block_lt hlt hvd
          · by_cases heq : d = e
            · subst heq
              have hcond : (if d < d then true else if d = d then lexLtB ds es else false)
                  = lexLtB ds es := by simp
              rw [hcond, ih es hlen' hds hes]
              omega
            · have hgt : e * 10 ^ ds.length + valBE es < d * 10 ^ ds.length + valBE ds :=
                digit_block_lt (by omega) hve'
              simp only [hlt, heq, if_false, Bool.false_eq_true, false_iff]
              omega

/-! ### partName: order correspondence and injectivity -/

theorem partName_nonneg (p : Int) (hp : 0 ≤ p) :
    partName p
      = digitCodes (List.replicate (6 - (decDigits p.toNat).length) 0 ++ decDigits p.toNat) := by
  rw [partName, if_neg (by omega)]

theorem pad_length_six (n : Nat) (h : n < 1000000) :
    (List.replicate (6 - (decDigits n).length) 0 ++ decDigits n).length = 6 := by
  have h6 : (decDigits n).length ≤ 6 := by
    apply decDigits_length_le
    have : (10 : Nat) ^ 6 = 1000000 := by norm_num
    omega
  simp only [List.length_append, List.length_replicate]
  omega

theorem pad_digits_lt (n w : Nat) : ∀ d ∈ List.replicate w 0 ++ decDigits n, d < 10 := by
  intro d hd
  rcases List.mem_append.mp hd with h | h
  · have := List.eq_of_mem_replicate h
    omega
  · exact decDigits_lt_ten n d h

theorem valBE_pad (n w : Nat) :
    valBE (List.replicate w 0 ++ decDigits n) = n := by
  rw [valBE_replicate_zero, valBE_decDigits]

theorem partName_length_six (p : Int) (hp : 0 ≤ p) (hlt : p < 1000000) :
    (partName p).length = 6 := by
  rw [partName_nonneg p hp, digitCodes, List.length_map]
  exact pad_length_six p.toNat (by omega)

/-- On part numbers `0 ≤ p < 10^6`, the lexicographic order of the
zero-padded filenames coincides with the numeric order. -/
theorem nameLtB_iff (p q : Int) (hp0 : 0 ≤ p) (hq0 : 0 ≤ q)
    (hp : p < 1000000) (hq : q < 1000000) :
    (nameLtB p q = true) ↔ p < q := by
  rw [nameLtB, partName_nonneg p hp0, partName_nonneg q hq0, lexLtB_digitCodes]
  rw [lexLtB_iff_valBE _ _
      (by rw [pad_length_six p.toNat (by omega), pad_length_six q.toNat (by omega)])
      (pad_digits_lt _ _) (pad_digits_lt _ _)]
  rw [valBE_pad, valBE_pad]
  omega

theorem digitCodes_eq_of {l₁ l₂ : List Nat} (h : digitCodes l₁ = digitCodes l₂) :
    l₁ = l₂ := by
  induction l₁ generalizing l₂ with
  | nil =>
      cases l₂ with
      | nil => rfl
      | cons e es => simp [digitCodes] at h
  | cons d ds ih =>
      cases l₂ with
      | nil => simp [digitCodes] at h
      | cons e es =>
          simp only [digitCodes, List.map_cons, List.cons.injEq] at h
          obtain ⟨h1, h2⟩ := h
          have hde : d = e := by omega
          have hds : ds = es := ih (by simpa [digitCodes] using h2)
          rw [hde, hds]

theorem head_45_ne_digit {X : List Nat} {n : Nat}
    (h : 45 :: X = digitCodes (List.replicate (6 - (decDigits n).length) 0 ++ decDigits n)) :
    False := by
  cases hc : List.replicate (6 - (decDigits n).length) 0 ++ decDigits n with
  | nil =>
      have hlen := congrArg List.length hc
      simp only [List.length_append, List.length_replicate, List.length_nil] at hlen
      omega
  | cons a rest =>
      rw [hc] at h
      simp only [digitCodes, List.map_cons, List.cons.injEq] at h
      omega

theorem partName_inj {p q : Int} (h : partName p = partName q) : p = q := by
  rcases lt_or_le p 0 with hp | hp <;> rcases lt_or_le q 0 with hq | hq
  · rw [partName, if_pos hp, partName, if_pos hq] at h
    simp only [List.cons.injEq] at h
    have hv := congrArg valBE (digitCodes_eq_of h.2)
    rw [valBE_pad, valBE_pad] at hv
    omega
  · exfalso
    rw [partName, if_pos hp, partName, if_neg (by omega)] at h
    exact head_45_ne_digit h
  · exfalso
    rw [partName, if_neg (by omega), partName, if_pos hq] at h
    exact head_45_ne_digit h.symm
  · rw [partName_nonneg p hp, partName_nonneg q hq] at h
    have hv := congrArg valBE (digitCodes_eq_of h)
    rw [valBE_pad, valBE_pad] at hv
    omega

/-! ### Order-theoretic properties of the filename order -/

theorem lexLtB_irrefl (l : List Nat) : lexLtB l l = false := by
  induction l with
  | nil => rfl
  | cons d ds ih => simp [lexLtB_cons, ih]

theorem lexLtB_asymm {a b : List Nat} (h : lexLtB a b = true) : lexLtB b a = false := by
  induction a generalizing b with
  | nil =>
      cases b with
      | nil => simp [lexLtB] at h
      | cons e es => rfl
  | cons d ds ih =>
      cases b with
      | nil => simp [lexLtB] at h
      | cons e es =>
          rw [lexLtB_cons] at h
          rw [lexLtB_cons]
          by_cases hlt : d < e
          · have hn1 : ¬e < d := by omega
            have hn2 : ¬e = d := by omega
            simp [hn1, hn2]
          · by_cases heq : d = e
            · subst heq
              simp only [hlt, if_neg hlt, if_pos rfl] at h
              simp [hlt, ih h]
            · simp [hlt, heq] at h

theorem lexLtB_trans {a b c : List Nat} (h1 : lexLtB a b = true)
    (h2 : lexLtB b c = true) : lexLtB a c = true := by
  induction a generalizing b c with
  | nil =>
      cases b with
      | nil => simp [lexLtB] at h1
      | cons e es =>
          cases c with
          | nil => simp [lexLtB] at h2
          | cons f fs => rfl
  | cons d ds ih =>
      cases b with
      | nil => simp [lexLtB] at h1
      | cons e es =>
          cases c with
          | nil => simp [lexLtB] at h2
          | cons f fs =>
              rw [lexLtB_cons] at h1 h2 ⊢
              by_cases h1lt : d < e <;> by_cases h2lt : e < f
              · have hdf : d < f := by omega
                simp [hdf]
              · by_cases h2eq : e = f
                · subst h2eq; simp [h1lt]
                · simp [h2lt, h2eq] at h2
              · simp only [h1lt, if_neg h1lt] at h1
                by_cases h1eq : d = e
                · subst h1eq; simp [h2lt]
                · simp [h1eq] at h1
              · simp only [h1lt, if_neg h1lt] at h1
                simp only [h2lt, if_neg h2lt] at h2
                by_cases h1eq : d = e
                · subst h1eq
                  by_cases h2eq : d = f
                  · subst h2eq
                    simp only [if_pos rfl] at h1 h2
                    simp [lt_irrefl, ih h1 h2]
                  · simp [h2eq] at h2
                · simp [h1eq] at h1

theorem lexLtB_total {a b : List Nat} (h1 : lexLtB a b = false)
    (h2 : lexLtB b a = false) : a = b := by
  induction a generalizing b with
  | nil =>
      cases b with
      | nil => rfl
      | cons e es => simp [lexLtB] at h1
  | cons d ds ih =>
      cases b with
      | nil => simp [lexLtB] at h2
      | cons e es =>
          rw [lexLtB_cons] at h1 h2
          by_cases hlt : d < e
          · simp [hlt] at h1
          · by_cases hgt : e < d
            · simp [hgt] at h2
            · have heq : d = e := by omega
              subst heq
              simp only [hlt, if_neg hlt, if_pos rfl] at h1 h2
              rw [ih h1 h2]

theorem nameLeB_iff (p q : Int) :
    nameLeB p q = true ↔ nameLtB p q = true ∨ partName p = partName q := by
  simp [nameLeB]

theorem nameLeB_total (p q : Int) : nameLeB p q = true ∨ nameLeB q p = true := by
  by_cases h1 : nameLtB p q = true
  · left; rw [nameLeB_iff]; exact Or.inl h1
  · by_cases h2 : nameLtB q p = true
    · right; rw [nameLeB_iff]; exact Or.inl h2
    · left
      rw [nameLeB_iff]
      right
      exact lexLtB_total (by simpa [nameLtB] using h1) (by simpa [nameLtB] using h2)

theorem nameLeB_trans {p q r : Int} (h1 : nameLeB p q = true)
    (h2 : nameLeB q r = true) : nameLeB p r = true := by
  rw [nameLeB_iff] at h1 h2 ⊢
  rcases h1 with h1 | h1 <;> rcases h2 with h2 | h2
  · exact Or.inl (lexLtB_trans h1 h2)
  · exact Or.inl (by rw [nameLtB] at h1 ⊢; rw [← h2]; exact h1)
  · exact Or.inl (by rw [nameLtB] at h2 ⊢; rw [h1]; exact h2)
  · exact Or.inr (h1.trans h2)

theorem nameLeB_key_eq {p q : Int} (h1 : nameLeB p q = true)
    (h2 : nameLeB q p = true) : p = q := by
  rw [nameLeB_iff] at h1 h2
  rcases h1 with h1 | h1
  · rcases h2 with h2 | h2
    · have := lexLtB_asymm (a := partName p) (b := partName q) h1
      rw [nameLtB] at h2
      rw [this] at h2
      exact absurd h2 (by simp)
    · exact partName_inj h2.symm
  · exact partName_inj h1

/-! ### Insertion sort: permutation, sortedness, uniqueness -/

theorem insertLe_perm (le : α → α → Bool) (x : α) (l : List α) :
    List.Perm (insertLe le x l) (x :: l) := by
  induction l with
  | nil => exact List.Perm.refl _
  | cons y ys ih =>
      by_cases h : le x y = true
      · simp [insertLe, h]
      · simp only [insertLe, if_neg h]
        exact (ih.cons y).trans (List.Perm.swap x y ys)

theorem sortLe_perm (le : α → α → Bool) (l : List α) : List.Perm (sortLe le l) l := by
  induction l with
  | nil => exact List.Perm.refl _
  | cons x xs ih => exact (insertLe_perm le x (sortLe le xs)).trans (ih.cons x)

theorem insertLe_pairwise (le : α → α → Bool)
    (htot : ∀ x y, le x y = true ∨ le y x = true)
    (htrans : ∀ {x y z}, le x y = true → le y z = true → le x z = true)
    (x : α) (l : List α) (hl : l.Pairwise (fun a b => le a b = true)) :
    (insertLe le x l).Pairwise (fun a b => le a b = true) := by
  induction l with
  | nil => simp [insertLe]
  | cons y ys ih =>
      rcases List.pairwise_cons.mp hl with ⟨hy, hys⟩
      by_cases h : le x y = true
      · simp only [insertLe, if_pos h]
        refine List.pairwise_cons.mpr ⟨?_, hl⟩
        intro b hb
        rcases List.mem_cons.mp hb with hb | hb
        · rw [hb]; exact h
        · exact htrans h (hy b hb)
      · simp only [insertLe, if_neg h]
        have hyx : le y x = true := (htot x y).resolve_left h
        refine List.pairwise_cons.mpr ⟨?_, ih hys⟩
        intro b hb
        rcases List.mem_cons.mp ((insertLe_perm le x ys).mem_iff.mp hb) with hb' | hb'
        · rw [hb']; exact hyx
        · exact hy b hb'

theorem sortLe_pairwise (le : α → α → Bool)
    (htot : ∀ x y, le x y = true ∨ le y x = true)
    (htrans : ∀ {x y z}, le x y = true → le y z = true → le x z = true)
    (l : List α) : (sortLe le l).Pairwise (fun a b => le a b = true) := by
  induction l with
  | nil => simp [sortLe]
  | cons x xs ih => exact insertLe_pairwise le htot htrans x (sortLe le xs) ih

/-- Two permuted lists of part-store entries that are both weakly sorted by
filename, with pairwise-distinct keys, are equal. -/
theorem sorted_perm_eq {l₁ l₂ : List (Int × Bytes)}
    (hperm : List.Perm l₁ l₂) (hn : (l₁.map Prod.fst).Nodup)
    (hs₁ : l₁.Pairwise (fun a b => nameLeB a.1 b.1 = true))
    (hs₂ : l₂.Pairwise (fun a b => nameLeB a.1 b.1 = true)) :
    l₁ = l₂ := by
  induction l₁ generalizing l₂ with
  | nil => exact (List.Perm.eq_nil hperm.symm).symm
  | cons x xs ih =>
      cases l₂ with
      | nil =>
          have := List.Perm.eq_nil hperm
          simp at this
      | cons y ys =>
          rcases List.pairwise_cons.mp hs₁ with ⟨hx, hxs⟩
          rcases List.pairwise_cons.mp hs₂ with ⟨hy, hys⟩
          have hn' : (List.map Prod.fst (x :: xs)).Nodup := hn
          rw [List.map_cons, List.nodup_cons] at hn'
          have hnc : x.1 ∉ List.map Prod.fst xs ∧ (List.map Prod.fst xs).Nodup := hn'
          have hxy : x = y := by
            rcases List.mem_cons.mp (hperm.mem_iff.mp (List.mem_cons_self x xs)) with h | h
            · exact h
            rcases List.mem_cons.mp (hperm.symm.mem_iff.mp (List.mem_cons_self y ys)) with h' | h'
            · exact h'.symm
            exfalso
            have hkey : x.1 = y.1 := nameLeB_key_eq (hx y h') (hy x h)
            exact hnc.1 (hkey ▸ List.mem_map_of_mem Prod.fst h')
          subst hxy
          exact congrArg (x :: ·) (ih hperm.cons_inv hnc.2 hxs hys)

/-! ### The ascending part-number list `[1..n]` -/

def intRange (n : Nat) : List Int := List.map Nat.cast (List.range' 1 n)

theorem intRange_length (n : Nat) : (intRange n).length = n := by
  rw [intRange, List.length_map, List.length_range']

theorem intRange_mem (n : Nat) (k : Int) : k ∈ intRange n ↔ 1 ≤ k ∧ k ≤ n := by
  rw [intRange, List.mem_map]
  constructor
  · rintro ⟨m, hm, rfl⟩
    rw [List.mem_range'_1] at hm
    omega
  · intro hk
    refine ⟨k.toNat, ?_, by omega⟩
    rw [List.mem_range'_1]
    omega

theorem intRange_nodup (n : Nat) : (intRange n).Nodup := by
  apply List.Nodup.map
  · intro a b hab
    omega
  · exact List.nodup_range' 1 n

theorem intRange_pairwise (n : Nat) : (intRange n).Pairwise (· < ·) := by
  apply List.Pairwise.map (R := fun a b : Nat => a < b)
  · intro a b hab
    omega
  · exact List.pairwise_lt_range' 1 n

/-! ### Keys of association lists and the canonical sorted form -/

theorem keys_setA [DecidableEq κ] (m : List (κ × β)) (k : κ) (v : β) :
    (setA m k v).map Prod.fst
      = if k ∈ m.map Prod.fst then m.map Prod.fst else m.map Prod.fst ++ [k] := by
  induction m with
  | nil => simp [setA]
  | cons e rest ih =>
      obtain ⟨k₀, v₀⟩ := e
      by_cases h0 : k₀ = k
      · subst h0
        simp [setA]
      · simp only [setA, if_neg h0, List.map_cons]
        rw [ih]
        by_cases hmem : k ∈ rest.map Prod.fst
        · have hc : k ∈ k₀ :: rest.map Prod.fst := List.mem_cons_of_mem _ hmem
          simp [hmem, hc]
        · have hc : ¬k ∈ k₀ :: rest.map Prod.fst := by
            intro hk
            rcases List.mem_cons.mp hk with h | h
            · exact h0 h.symm
            · exact hmem h
          simp [hmem, hc]

theorem keys_setA_mem [DecidableEq κ] (m : List (κ × β)) (k k' : κ) (v : β) :
    k' ∈ (setA m k v).map Prod.fst ↔ k' ∈ m.map Prod.fst ∨ k' = k := by
  rw [keys_setA]
  by_cases h : k ∈ m.map Prod.fst
  · simp only [if_pos h]
    constructor
    · exact Or.inl
    · rintro (hk | rfl)
      · exact hk
      · exact h
  · simp [if_neg h, List.mem_append]

theorem keys_setA_nodup [DecidableEq κ] {m : List (κ × β)}
    (hm : (m.map Prod.fst).Nodup) (k : κ) (v : β) :
    ((setA m k v).map Prod.fst).Nodup := by
  rw [keys_setA]
  by_cases h : k ∈ m.map Prod.fst
  · simpa [h] using hm
  · simp [h, List.nodup_append, hm]

theorem setA_length_mem [DecidableEq κ] (m : List (κ × β)) (k : κ) (v : β) :
    (setA m k v).length = if k ∈ m.map Prod.fst then m.length else m.length + 1 := by
  have h := congrArg List.length (keys_setA m k v)
  simp only [List.length_map] at h
  rw [h]
  by_cases hm : k ∈ m.map Prod.fst <;> simp [hm]

theorem assoc_eta (m : List (Int × Bytes)) (hk : (m.map Prod.fst).Nodup) :
    List.map (fun k => (k, (getA m k).getD [])) (m.map Prod.fst) = m := by
  induction m with
  | nil => rfl
  | cons e rest ih =>
      obtain ⟨k, v⟩ := e
      rw [List.map_cons] at hk
      have hk' := List.nodup_cons.mp hk
      rw [List.map_cons, List.map_cons]
      congr 1
      · simp [getA]
      · have hcong : List.map (fun k' => (k', (getA ((k, v) :: rest) k').getD []))
            (rest.map Prod.fst)
            = List.map (fun k' => (k', (getA rest k').getD [])) (rest.map Prod.fst) := by
          apply List.map_congr_left
          intro k' hk''
          have hne : ¬k = k' := fun he => hk'.1 (he ▸ hk'')
          simp [getA, hne]
        rw [hcong, ih hk'.2]

theorem nameLeB_of_lt_bounded {a b : Int} (h1a : 1 ≤ a) (hab : a < b) (hb : b ≤ 4000) :
    nameLeB a b = true := by
  rw [nameLeB_iff]
  exact Or.inl ((nameLtB_iff a b (by omega) (by omega) (by omega) (by omega)).mpr hab)

/-- The part store sorted by filename equals the store read off in ascending
numeric part order, whenever the key set is exactly `{1..n}` with `n` at most
the 4000-part cap. -/
theorem sortParts_eq (m : List (Int × Bytes)) (n : Nat) (hn : n ≤ 4000)
    (hns : (m.map Prod.fst).Nodup)
    (hperm : List.Perm (m.map Prod.fst) (intRange n)) :
    sortParts m = List.map (fun k => (k, (getA m k).getD [])) (intRange n) := by
  have heta := assoc_eta m hns
  have hpm : List.Perm (sortParts m)
      (List.map (fun k => (k, (getA m k).getD [])) (intRange n)) := by
    have h1 := hperm.map (fun k => (k, (getA m k).getD []))
    rw [heta] at h1
    exact (sortLe_perm _ m).trans h1
  have hs1 : (sortParts m).Pairwise (fun a b => nameLeB a.1 b.1 = true) :=
    sortLe_pairwise _ (fun x y => nameLeB_total x.1 y.1)
      (fun {x y z} hxy hyz => @nameLeB_trans x.1 y.1 z.1 hxy hyz) m
  have hsr : (intRange n).Pairwise (fun a b => nameLeB a b = true) := by
    refine List.Pairwise.imp_of_mem ?_ (intRange_pairwise n)
    intro a b ha hb hab
    rcases (intRange_mem n a).mp ha with ⟨ha1, _⟩
    rcases (intRange_mem n b).mp hb with ⟨_, hb2⟩
    exact nameLeB_of_lt_bounded ha1 hab (by omega)
  have hs2 : (List.map (fun k => (k, (getA m k).getD [])) (intRange n)).Pairwise
      (fun a b => nameLeB a.1 b.1 = true) := by
    apply List.Pairwise.map (R := fun a b : Int => nameLeB a b = true)
    · intro a b hab
      exact hab
    · exact hsr
  have hnd : ((sortParts m).map Prod.fst).Nodup :=
    (((sortLe_perm _ m).map Prod.fst).nodup_iff).mpr hns
  exact sorted_perm_eq hpm hnd hs1 hs2

/-! ### Folding a delivery sequence into the store and the received map -/

/-- One delivery's effect on the staged part files. -/
def bsStep (m : List (Int × Bytes)) (d : Int × Bytes) : List (Int × Bytes) :=
  setA m d.1 d.2

/-- One delivery's effect on `parts_received`. -/
def bmStep (m : List (Int × Nat)) (d : Int × Bytes) : List (Int × Nat) :=
  setA m d.1 d.2.length

/-- The staged store after a delivery sequence: last write per part number. -/
def buildStore (ds : List (Int × Bytes)) : List (Int × Bytes) := ds.foldl bsStep []

/-- The `parts_received` map after a delivery sequence. -/
def buildMap (ds : List (Int × Bytes)) : List (Int × Nat) := ds.foldl bmStep []

/-- Claim-side "final bytes of part `k`": the body of the last delivery
carrying part number `k`. -/
def lastDelivered (ds : List (Int × Bytes)) (k : Int) : Option Bytes :=
  ds.foldl (fun acc d => if d.1 = k then some d.2 else acc) none

theorem buildStore_append_one (q : List (Int × Bytes)) (d : Int × Bytes) :
    buildStore (q ++ [d]) = setA (buildStore q) d.1 d.2 := by
  rw [buildStore, List.foldl_append]
  rfl

theorem buildMap_append_one (q : List (Int × Bytes)) (d : Int × Bytes) :
    buildMap (q ++ [d]) = setA (buildMap q) d.1 d.2.length := by
  rw [buildMap, List.foldl_append]
  rfl

theorem foldl_bs_keys (q : List (Int × Bytes)) :
    ∀ (m₁ : List (Int × Bytes)) (m₂ : List (Int × Nat)),
      m₁.map Prod.fst = m₂.map Prod.fst →
      (q.foldl bsStep m₁).map Prod.fst = (q.foldl bmStep m₂).map Prod.fst := by
  induction q with
  | nil => intro _ _ h; exact h
  | cons d rest ih =>
      intro m₁ m₂ h
      simp only [List.foldl_cons]
      apply ih
      rw [bsStep, bmStep, keys_setA, keys_setA, h]

theorem buildStore_keys (q : List (Int × Bytes)) :
    (buildStore q).map Prod.fst = (buildMap q).map Prod.fst :=
  foldl_bs_keys q [] [] rfl

theorem foldl_bm_keys_nodup (q : List (Int × Bytes)) :
    ∀ m : List (Int × Nat), (m.map Prod.fst).Nodup →
      ((q.foldl bmStep m).map Prod.fst).Nodup := by
  induction q with
  | nil => intro m h; exact h
  | cons d rest ih =>
      intro m h
      simp only [List.foldl_cons]
      exact ih _ (keys_setA_nodup h d.1 d.2.length)

theorem buildMap_keys_nodup (q : List (Int × Bytes)) :
    ((buildMap q).map Prod.fst).Nodup :=
  foldl_bm_keys_nodup q [] (by simp)

theorem buildStore_keys_nodup (q : List (Int × Bytes)) :
    ((buildStore q).map Prod.fst).Nodup := by
  rw [buildStore_keys]
  exact buildMap_keys_nodup q

theorem foldl_bm_keys_mem (q : List (Int × Bytes)) :
    ∀ (m : List (Int × Nat)) (k : Int),
      k ∈ (q.foldl bmStep m).map Prod.fst ↔ k ∈ m.map Prod.fst ∨ k ∈ q.map Prod.fst := by
  induction q with
  | nil => intro m k; simp
  | cons d rest ih =>
      intro m k
      simp only [List.foldl_cons, List.map_cons, List.mem_cons]
      rw [ih, bmStep, keys_setA_mem]
      tauto

theorem buildMap_keys_mem (q : List (Int × Bytes)) (k : Int) :
    k ∈ (buildMap q).map Prod.fst ↔ k ∈ q.map Prod.fst := by
  rw [buildMap, foldl_bm_keys_mem]
  simp

theorem buildStore_keys_mem (q : List (Int × Bytes)) (k : Int) :
    k ∈ (buildStore q).map Prod.fst ↔ k ∈ q.map Prod.fst := by
  rw [buildStore_keys]
  exact buildMap_keys_mem q k

theorem foldl_bs_getA (q : List (Int × Bytes)) (k : Int) :
    ∀ (m : List (Int × Bytes)) (a : Option Bytes), getA m k = a →
      getA (q.foldl bsStep m) k
        = q.foldl (fun acc d => if d.1 = k then some d.2 else acc) a := by
  induction q with
  | nil => intro m a h; exact h
  | cons d rest ih =>
      intro m a h
      simp only [List.foldl_cons]
      apply ih
      by_cases hk : d.1 = k
      · rw [bsStep, hk, getA_setA_self]
        simp
      · rw [bsStep, getA_setA_ne _ _ _ _ (fun he => hk he.symm), if_neg hk, h]

theorem getA_buildStore (q : List (Int × Bytes)) (k : Int) :
    getA (buildStore q) k = lastDelivered q k :=
  foldl_bs_getA q k [] none rfl

/-! ### The assembly trigger point -/

/-- Length of the shortest delivery prefix whose distinct-part count reaches
`n` (the whole length if it never does), starting from received map `m`. -/
def triggerLenAux (n : Nat) : List (Int × Nat) → List (Int × Bytes) → Nat
  | _, [] => 0
  | m, d :: rest =>
      if (bmStep m d).length ≥ n then 1 else 1 + triggerLenAux n (bmStep m d) rest

def triggerLen (ds : List (Int × Bytes)) (n : Nat) : Nat := triggerLenAux n [] ds

theorem triggerAux_split (n : Nat) (ds : List (Int × Bytes)) :
    ∀ m : List (Int × Nat),
      (ds.foldl bmStep m).length ≥ n → m.length < n →
      ∃ pre d post, ds = pre ++ d :: post ∧
        triggerLenAux n m ds = pre.length + 1 ∧
        (pre.foldl bmStep m).length < n ∧
        ((pre ++ [d]).foldl bmStep m).length ≥ n := by
  induction ds with
  | nil =>
      intro m h1 h2
      simp only [List.foldl_nil] at h1
      omega
  | cons d rest ih =>
      intro m h1 h2
      by_cases hr : (bmStep m d).length ≥ n
      · refine ⟨[], d, rest, rfl, ?_, ?_, ?_⟩
        · simp [triggerLenAux, hr]
        · simpa using h2
        · simpa using hr
      · have h1' : (rest.foldl bmStep (bmStep m d)).length ≥ n := by
          simpa using h1
      
        obtain ⟨pre, d', post, hsplit, htl, hlt, hge⟩ := ih (bmStep m d) h1' (by omega)
        refine ⟨d :: pre, d', post, by rw [hsplit]; rfl, ?_, ?_, ?_⟩
        · simp only [triggerLenAux, if_neg hr, htl, List.length_cons]
          omega
        · simpa using hlt
        · simpa using hge

/-! ### C1 phase analysis -/

theorem computeNumParts_pos (fsz : Option Nat) (rt : Bool) :
    1 ≤ computeNumParts fsz rt := by
  rcases fsz with _ | S
  · simp [computeNumParts]
  · rcases rt with _ | _ <;> simp only [computeNumParts] <;> split <;> omega

theorem computeNumParts_le (fsz : Option Nat) (rt : Bool) :
    computeNumParts fsz rt ≤ 4000 := by
  rcases fsz with _ | S
  · simp [computeNumParts]
  · rcases rt with _ | _ <;> simp only [computeNumParts] <;> split <;> omega

theorem resolveName_nil (nm : String) : resolveName [] nm = nm := by
  simp [resolveName]

/-- The registry entry created for the C1 scenario asset. -/
def c1Asset (id nm : String) (fsz : Option Nat) (ft : Option String) : Asset :=
  { name := sanitizeName (some nm) id, filesize := fsz, filetype := ft.getD octetStream,
    numParts := computeNumParts fsz false, partsReceived := [], isRealtime := false,
    complete := false, nextRealtimePart := none }

/-- The server state while the asset is still incomplete, after the delivery
prefix `seen`. -/
def c1Mid (id : String) (A : Asset) (seen : List (Int × Bytes)) : ServerState :=
  { assets := [(id, { A with partsReceived := buildMap seen })],
    uploadLog := [],
    fs := { parts := if seen = [] then [] else [(id, buildStore seen)], outputs := [] },
    assembled := [], issued := [(id, List.range' 1 A.numParts)] }

/-- The server state after assembly has consumed the deliveries `q`. -/
def c1Done (id : String) (A : Asset) (q : List (Int × Bytes)) : ServerState :=
  { assets := [],
    uploadLog := [mkLogEntry A.name (((sortParts (buildStore q)).map Prod.snd).flatten).length
      A.filetype],
    fs := { parts := [],
            outputs := [(A.name, ((sortParts (buildStore q)).map Prod.snd).flatten)] },
    assembled := [id],
    issued := [(id, List.range' 1 A.numParts)] }

theorem c1_create (id nm : String) (fsz : Option Nat) (ft : Option String) :
    run (initState []) [Op.createAsset id (some nm) fsz ft false]
      = c1Mid id (c1Asset id nm fsz ft) [] := by
  simp only [run, step, createAsset, initState, c1Mid, c1Asset, scanLog, sortLe]
  rfl

theorem buildStore_cons_append_one (s d : Int × Bytes) (rest : List (Int × Bytes)) :
    buildStore (s :: (rest ++ [d])) = setA (buildStore (s :: rest)) d.1 d.2 := by
  have h : s :: (rest ++ [d]) = (s :: rest) ++ [d] := rfl
  rw [h, buildStore_append_one]

theorem buildMap_cons_append_one (s d : Int × Bytes) (rest : List (Int × Bytes)) :
    buildMap (s :: (rest ++ [d])) = setA (buildMap (s :: rest)) d.1 d.2.length := by
  have h : s :: (rest ++ [d]) = (s :: rest) ++ [d] := rfl
  rw [h, buildMap_append_one]

theorem c1_stage (id : String) (seen : List (Int × Bytes)) (d : Int × Bytes) :
    stagePart { parts := if seen = [] then [] else [(id, buildStore seen)], outputs := [] }
        id d.1 d.2
      = { parts := [(id, buildStore (seen ++ [d]))], outputs := [] } := by
  cases seen with
  | nil => simp [stagePart, setA, getA, buildStore, bsStep]
  | cons s rest =>
      simp [stagePart, setA, getA, buildStore_cons_append_one]

theorem c1_upload_step (id nm : String) (fsz : Option Nat) (ft : Option String)
    (seen : List (Int × Bytes)) (d : Int × Bytes)
    (hlt : (buildMap (seen ++ [d])).length < computeNumParts fsz false) :
    (step (c1Mid id (c1Asset id nm fsz ft) seen) (Op.uploadPart id (.value d.1) d.2)).1
      = c1Mid id (c1Asset id nm fsz ft) (seen ++ [d]) := by
  have hcond : ¬((c1Asset id nm fsz ft).isRealtime = false ∧
      (setA (buildMap seen) d.1 (List.length d.2)).length ≥ (c1Asset id nm fsz ft).numParts) := by
    rw [← buildMap_append_one]
    simp only [c1Asset, not_and, not_le]
    intro _
    exact hlt
  simp only [step, uploadPart, parsePart, c1Mid, getA, if_pos rfl, if_true]
  simp only [hcond, if_false, if_neg hcond]
  simp only [stagePart, setA, getA, if_pos rfl, if_true, buildMap_append_one,
    buildStore_append_one]
  cases seen with
  | nil =>
      simp only [buildStore, buildMap, List.foldl_nil, setA]
      simp
  | cons s rest =>
      simp only [List.cons_append]
      simp [setA, getA]

theorem c1_trigger_step (id nm : String) (fsz : Option Nat) (ft : Option String)
    (seen : List (Int × Bytes)) (d : Int × Bytes)
    (hge : (buildMap (seen ++ [d])).length ≥ computeNumParts fsz false) :
    (step (c1Mid id (c1Asset id nm fsz ft) seen) (Op.uploadPart id (.value d.1) d.2)).1
      = c1Done id (c1Asset id nm fsz ft) (seen ++ [d]) := by
  have hcond : ((c1Asset id nm fsz ft).isRealtime = false ∧
      (setA (buildMap seen) d.1 (List.length d.2)).length ≥ (c1Asset id nm fsz ft).numParts) := by
    refine ⟨rfl, ?_⟩
    rw [← buildMap_append_one]
    exact hge
  simp only [step, uploadPart, parsePart, c1Mid, getA, if_pos rfl, if_true]
  simp only [if_pos hcond]
  rw [c1_stage]
  simp only [setA, if_pos rfl, if_true]
  simp only [assembleFile, getA, if_pos rfl, if_true, c1Asset]
  simp [pruneState, eraseA, setA, resolveName_nil, c1Done, mkLogEntry]

theorem c1_phase1 (id nm : String) (fsz : Option Nat) (ft : Option String)
    (seen : List (Int × Bytes)) :
    (buildMap seen).length < computeNumParts fsz false →
    run (initState []) (Op.createAsset id (some nm) fsz ft false ::
        seen.map (fun d => Op.uploadPart id (.value d.1) d.2))
      = c1Mid id (c1Asset id nm fsz ft) seen := by
  induction seen using List.reverseRecOn with
  | nil =>
      intro _
      exact c1_create id nm fsz ft
  | append_singleton l d ih =>
      intro hlt
      have hlt' : (buildMap l).length < computeNumParts fsz false := by
        rw [buildMap_append_one, setA_length_mem] at hlt
        split at hlt <;> omega
      have hops : Op.createAsset id (some nm) fsz ft false ::
          (l ++ [d]).map (fun e => Op.uploadPart id (.value e.1) e.2)
          = (Op.createAsset id (some nm) fsz ft false ::
              l.map (fun e => Op.uploadPart id (.value e.1) e.2))
            ++ [Op.uploadPart id (.value d.1) d.2] := by
        simp
      rw [hops, run_append, ih hlt']
      exact c1_upload_step id nm fsz ft l d hlt

theorem c1_phase2 (id nm : String) (fsz : Option Nat) (ft : Option String)
    (l : List (Int × Bytes)) (d : Int × Bytes)
    (hlt : (buildMap l).length < computeNumParts fsz false)
    (hge : (buildMap (l ++ [d])).length ≥ computeNumParts fsz false) :
    run (initState []) (Op.createAsset id (some nm) fsz ft false ::
        (l ++ [d]).map (fun e => Op.uploadPart id (.value e.1) e.2))
      = c1Done id (c1Asset id nm fsz ft) (l ++ [d]) := by
  have hops : Op.createAsset id (some nm) fsz ft false ::
      (l ++ [d]).map (fun e => Op.uploadPart id (.value e.1) e.2)
      = (Op.createAsset id (some nm) fsz ft false ::
          l.map (fun e => Op.uploadPart id (.value e.1) e.2))
        ++ [Op.uploadPart id (.value d.1) d.2] := by
    simp
  rw [hops, run_append, c1_phase1 id nm fsz ft l hlt]
  exact c1_trigger_step id nm fsz ft l d hge

theorem c1_phase3 (id : String) (A : Asset) (q : List (Int × Bytes))
    (post : List (Int × Bytes)) :
    run (c1Done id A q) (post.map (fun e => Op.uploadPart id (.value e.1) e.2))
      = c1Done id A q := by
  induction post with
  | nil => rfl
  | cons e rest ih =>
      have hstep : (step (c1Done id A q) (Op.uploadPart id (.value e.1) e.2)).1
          = c1Done id A q := by
        simp [step, uploadPart, parsePart, c1Done, getA]
      simp only [List.map_cons, run]
      rw [hstep]
      exact ih

/-- C1 (amended): for a non-realtime asset with `expected_parts = n`, and any
delivery sequence whose set of distinct part numbers equals `{1..n}`, the
assembled output is byte-for-byte the concatenation, in ascending numeric
part-number order, of the final bytes each part had when assembly triggered —
that is, at the first moment the distinct-part count reaches `n`; deliveries
after that point are rejected as not-found (the asset has been pruned) and do
not affect the output.  The original claim reads "final bytes" over the whole
sequence, which the counterexample refutes. -/
theorem c1_theorem (id nm : String) (fsz : Option Nat) (ft : Option String)
    (ds : List (Int × Bytes))
    (hset : ∀ k : Int, k ∈ ds.map Prod.fst ↔ k ∈ intRange (computeNumParts fsz false)) :
    (run (initState []) (Op.createAsset id (some nm) fsz ft false ::
        ds.map (fun e => Op.uploadPart id (.value e.1) e.2))).fs.outputs
      = [(sanitizeName (some nm) id,
          ((intRange (computeNumParts fsz false)).map
            (fun k => (lastDelivered (ds.take (triggerLen ds (computeNumParts fsz false))) k).getD
              [])).flatten)] := by
  have hkeys_mem : ∀ k, k ∈ (buildMap ds).map Prod.fst ↔
      k ∈ intRange (computeNumParts fsz false) := by
    intro k
    rw [buildMap_keys_mem]
    exact hset k
  have hperm_full : List.Perm ((buildMap ds).map Prod.fst)
      (intRange (computeNumParts fsz false)) :=
    (List.perm_ext_iff_of_nodup (buildMap_keys_nodup ds)
      (intRange_nodup (computeNumParts fsz false))).mpr hkeys_mem
  have hlen_full : ((buildMap ds).map Prod.fst).length
      = (computeNumParts fsz false) := by
    rw [hperm_full.length_eq, intRange_length]
  have hge_full : (ds.foldl bmStep []).length ≥ computeNumParts fsz false := by
    have : (buildMap ds).length = computeNumParts fsz false := by
      rw [← hlen_full, List.length_map]
    rw [show ds.foldl bmStep [] = buildMap ds from rfl, this]
  obtain ⟨pre, d, post, hsplit, htl, hlt, hge⟩ :=
    triggerAux_split (computeNumParts fsz false) ds [] hge_full
      (by simpa using computeNumParts_pos fsz false)
  have hlt' : (buildMap pre).length < computeNumParts fsz false := hlt
  have hge' : (buildMap (pre ++ [d])).length ≥ computeNumParts fsz false := hge
  have hcut : ds.take (triggerLen ds (computeNumParts fsz false)) = pre ++ [d] := by
    rw [triggerLen, htl, hsplit, List.take_append]
    simp
  have hops : Op.createAsset id (some nm) fsz ft false ::
      ds.map (fun e => Op.uploadPart id (.value e.1) e.2)
      = (Op.createAsset id (some nm) fsz ft false ::
          (pre ++ [d]).map (fun e => Op.uploadPart id (.value e.1) e.2))
        ++ post.map (fun e => Op.uploadPart id (.value e.1) e.2) := by
    rw [hsplit]
    simp
  rw [hops, run_append, c1_phase2 id nm fsz ft pre d hlt' hge',
    c1_phase3 id (c1Asset id nm fsz ft) (pre ++ [d]) post]
  -- now compute outputs of c1Done
  have hsub : ∀ k, k ∈ (buildStore (pre ++ [d])).map Prod.fst →
      k ∈ intRange (computeNumParts fsz false) := by
    intro k hk
    rw [buildStore_keys_mem] at hk
    rw [← hset k, hsplit]
    rcases List.mem_map.mp hk with ⟨e, he, rfl⟩
    apply List.mem_map_of_mem
    rcases List.mem_append.mp he with h | h
    · exact List.mem_append.mpr (Or.inl h)
    · have hd : e = d := List.mem_singleton.mp h
      subst hd
      exact List.mem_append.mpr (Or.inr (List.mem_cons_self e post))
  have hnds : ((buildStore (pre ++ [d])).map Prod.fst).Nodup := buildStore_keys_nodup _
  have hlen_cut : (intRange (computeNumParts fsz false)).length
      ≤ ((buildStore (pre ++ [d])).map Prod.fst).length := by
    rw [intRange_length, List.length_map]
    have h1 : (buildStore (pre ++ [d])).length = (buildMap (pre ++ [d])).length := by
      have := congrArg List.length (buildStore_keys (pre ++ [d]))
      simpa using this
    rw [h1]
    exact hge'
  have hperm_cut : List.Perm ((buildStore (pre ++ [d])).map Prod.fst)
      (intRange (computeNumParts fsz false)) :=
    (hnds.subperm (fun k hk => hsub k hk)).perm_of_length_le hlen_cut
  have hsort := sortParts_eq (buildStore (pre ++ [d])) (computeNumParts fsz false)
    (computeNumParts_le fsz false) hnds hperm_cut
  simp only [c1Done, c1Asset, hsort, List.map_map]
  have hmap : List.map (Prod.snd ∘ fun k => (k, (getA (buildStore (pre ++ [d])) k).getD []))
      (intRange (computeNumParts fsz false))
      = List.map (fun k =>
          (lastDelivered (ds.take (triggerLen ds (computeNumParts fsz false))) k).getD [])
        (intRange (computeNumParts fsz false)) := by
    apply List.map_congr_left
    intro k hk
    simp only [Function.comp]
    rw [getA_buildStore, hcut]
  rw [hmap]

def c1ceOps : List Op :=
  [Op.createAsset aId (some clipStr) none none false,
   Op.uploadPart aId (.value 1) [0],
   Op.uploadPart aId (.value 1) [1]]

def c1ceDeliveries : List (Int × Bytes) := [(1, [0]), (1, [1])]

/-- C1 counterexample: with `expected_parts = 1` and deliveries of part 1
carrying `[0]` and then `[1]` (distinct part set `{1}`), assembly triggers at
the first delivery, the second is rejected (the asset is pruned), and the
output file holds `[0]` — not the final bytes `[1]` of the delivery sequence
as the claim, quantifying over "any repetition", requires. -/
theorem c1_counterexample :
    (run (initState []) c1ceOps).fs.outputs = [(clipStr, [0])] ∧
    ((intRange 1).map (fun k => (lastDelivered c1ceDeliveries k).getD [])).flatten = [1] ∧
    (c1ceDeliveries.map Prod.fst = [1, 1] ∧ computeNumParts none false = 1) ∧
    [(clipStr, ([0] : Bytes))] ≠ [(clipStr, [1])] := by decide

def c1WitDs : List (Int × Bytes) := [(2, [20, 21]), (1, [10]), (3, [30])]

theorem c1_witness :
    (run (initState []) (Op.createAsset aId (some clipStr) (some sixtyMB) none false ::
        c1WitDs.map (fun e => Op.uploadPart aId (.value e.1) e.2))).fs.outputs
      = [(clipStr, [10, 20, 21, 30])] := by
  have hn : computeNumParts (some sixtyMB) false = 3 := by decide
  have hr : intRange 3 = [1, 2, 3] := by decide
  have hset : ∀ k : Int, k ∈ c1WitDs.map Prod.fst ↔
      k ∈ intRange (computeNumParts (some sixtyMB) false) := by
    intro k
    rw [hn, hr]
    simp only [c1WitDs, List.map_cons, List.map_nil, List.mem_cons, List.not_mem_nil]
    tauto
  have h := c1_theorem aId clipStr (some sixtyMB) none c1WitDs hset
  rw [h]
  decide

/-! ### C9: collision resolution never overwrites -/

theorem digitChar_toNat (d : Nat) (h : d < 10) : (digitChar d).toNat = 48 + d := by
  rw [digitChar]
  unfold Char.ofNat
  rw [dif_pos (Or.inl (by omega : 48 + d < 55296) : (48 + d).isValidChar)]
  simp [Char.ofNatAux, Char.toNat, UInt32.toNat, UInt32.ofNatTruncate, UInt32.ofNat']

theorem map_digitChar_inj {l₁ l₂ : List Nat} (h1 : ∀ d ∈ l₁, d < 10)
    (h2 : ∀ d ∈ l₂, d < 10) (h : l₁.map digitChar = l₂.map digitChar) : l₁ = l₂ := by
  induction l₁ generalizing l₂ with
  | nil =>
      cases l₂ with
      | nil => rfl
      | cons e es => simp at h
  | cons d ds ih =>
      cases l₂ with
      | nil => simp at h
      | cons e es =>
          simp only [List.map_cons, List.cons.injEq] at h
          have hde : d = e := by
            have hx := congrArg Char.toNat h.1
            rw [digitChar_toNat d (h1 d (List.mem_cons_self d ds)),
              digitChar_toNat e (h2 e (List.mem_cons_self e es))] at hx
            omega
          rw [hde, ih (fun x hx => h1 x (List.mem_cons_of_mem d hx))
            (fun x hx => h2 x (List.mem_cons_of_mem e hx)) h.2]

theorem natStr_inj {a b : Nat} (ha : 1 ≤ a) (hb : 1 ≤ b) (h : natStr a = natStr b) :
    a = b := by
  rw [natStr, if_neg (by omega), natStr, if_neg (by omega)] at h
  have hdata : (decDigits a).map digitChar = (decDigits b).map digitChar :=
    congrArg String.data h
  have hdd := map_digitChar_inj (decDigits_lt_ten a) (decDigits_lt_ten b) hdata
  have hv := congrArg valBE hdd
  rw [valBE_decDigits, valBE_decDigits] at hv
  exact hv

theorem candName_inj {stem sfx : String} {a b : Nat} (ha : 1 ≤ a) (hb : 1 ≤ b)
    (h : candName stem sfx a = candName stem sfx b) : a = b := by
  apply natStr_inj ha hb
  have hd := congrArg String.data h
  simp only [candName, String.data_append] at hd
  have h1 := List.append_cancel_right hd
  have h2 := List.append_cancel_left h1
  cases hna : natStr a with
  | mk da =>
      cases hnb : natStr b with
      | mk db =>
          rw [hna, hnb] at h2
          simp only [List.cons.injEq] at h2
          exact congrArg String.mk (by simpa using h2)

theorem resolveLoop_avoids (existing : List String) (stem sfx : String) :
    ∀ (fuel c : Nat), (∃ i, i < fuel ∧ candName stem sfx (c + i) ∉ existing) →
      resolveLoop existing stem sfx fuel c ∉ existing := by
  intro fuel
  induction fuel with
  | zero =>
      intro c h
      obtain ⟨i, hi, _⟩ := h
      omega
  | succ f ih =>
      intro c h
      obtain ⟨i, hi, hfree⟩ := h
      simp only [resolveLoop]
      by_cases hc : candName stem sfx c ∈ existing
      · rw [if_pos hc]
        apply ih
        cases i with
        | zero =>
            exfalso
            apply hfree
            simpa using hc
        | succ j =>
            refine ⟨j, by omega, ?_⟩
            have he : c + 1 + j = c + (j + 1) := by omega
            rw [he]
            exact hfree
      · rw [if_neg hc]
        exact hc

theorem exists_free_cand (existing : List String) (stem sfx : String) :
    ∃ i, i < existing.length + 1 ∧ candName stem sfx (1 + i) ∉ existing := by
  by_contra hall
  push_neg at hall
  have hinj : Function.Injective (fun i : Nat => candName stem sfx (1 + i)) := by
    intro i j hij
    have := candName_inj (by omega) (by omega) hij
    omega
  have hnodup : ((List.range (existing.length + 1)).map
      (fun i => candName stem sfx (1 + i))).Nodup :=
    List.Nodup.map hinj (List.nodup_range _)
  have hsub : ((List.range (existing.length + 1)).map
      (fun i => candName stem sfx (1 + i))) ⊆ existing := by
    intro x hx
    rcases List.mem_map.mp hx with ⟨i, hi, rfl⟩
    exact hall i (List.mem_range.mp hi)
  have hle := (hnodup.subperm hsub).length_le
  simp at hle

/-- `_assemble_file` never picks an output name that already exists in the
destination directory. -/
theorem resolveName_not_mem (existing : List String) (nm : String) :
    resolveName existing nm ∉ existing := by
  rw [resolveName]
  by_cases h : nm ∈ existing
  · rw [if_pos h]
    obtain ⟨i, hi, hfree⟩ := exists_free_cand existing (splitName nm).1 (splitName nm).2
    exact resolveLoop_avoids existing _ _ (existing.length + 1) 1 ⟨i, hi, hfree⟩
  · rw [if_neg h]
    exact h

/-! ### No output file is ever overwritten (system level) -/

theorem outputs_nodup_assembleFile {st : ServerState}
    (h : (st.fs.outputs.map Prod.fst).Nodup) (id : String) :
    (((assembleFile st id).fs.outputs).map Prod.fst).Nodup := by
  unfold assembleFile
  cases hA : getA st.assets id with
  | none => exact h
  | some a =>
      by_cases hc : a.complete
      · simpa [hc] using h
      · cases hD : getA st.fs.parts id with
        | none => simpa [hc, hD] using h
        | some dir =>
            simp only [hc, hD, Bool.false_eq_true, if_false]
            simp only [pruneState, List.map_append, List.nodup_append]
            refine ⟨h, by simp, ?_⟩
            intro nm' hnm' hx
            simp only [List.map_cons, List.map_nil, List.mem_cons, List.not_mem_nil,
              or_false] at hx
            rw [hx] at hnm'
            exact resolveName_not_mem _ _ hnm'

theorem outputs_nodup_step {st : ServerState}
    (h : (st.fs.outputs.map Prod.fst).Nodup) (op : Op) :
    ((step st op).1.fs.outputs.map Prod.fst).Nodup := by
  cases op with
  | createAsset id nm fsz ft rt => exact h
  | uploadPart id pp body =>
      simp only [step, uploadPart]
      cases hp : parsePart pp with
      | none => exact h
      | some p =>
          cases hA : getA st.assets id with
          | none => exact h
          | some a =>
              by_cases hr : a.isRealtime = false ∧
                  (setA a.partsReceived p body.length).length ≥ a.numParts
              · simpa [hr] using @outputs_nodup_assembleFile { st with fs := stagePart st.fs id p body, assets := setA st.assets id { a with partsReceived := setA a.partsReceived p body.length } } h id
              · simpa [hr] using h
  | createRealtimeParts id =>
      simp only [step, createRealtimeParts]
      cases hA : getA st.assets id with
      | none => exact h
      | some a => exact h
  | completeRealtime id =>
      simp only [step, completeRealtime]
      cases hA : getA st.assets id with
      | none => exact h
      | some a =>
          exact @outputs_nodup_assembleFile { st with assets := setA st.assets id { a with numParts := a.partsReceived.length } } h id

theorem outputs_nodup_run (st : ServerState)
    (h : (st.fs.outputs.map Prod.fst).Nodup) (ops : List Op) :
    ((run st ops).fs.outputs.map Prod.fst).Nodup := by
  induction ops generalizing st with
  | nil => exact h
  | cons op rest ih => exact ih _ (outputs_nodup_step h op)

def clip1Str : String := "clip_1.mov"

def c9Ops : List Op :=
  [Op.createAsset aId (some clipStr) none none false,
   Op.uploadPart aId (.value 1) [7],
   Op.createAsset bId (some clipStr) none none false,
   Op.uploadPart bId (.value 1) [8]]

/-- C9: the collision-resolution loop returns a name not present in the
destination (never overwriting an existing file); consequently, from a fresh
start the output directory always holds pairwise-distinct names; and
assembling two distinct assets both named `clip.mov` produces the two
distinct files `clip.mov` and `clip_1.mov` — the deterministic incrementing
suffix before the extension. -/
theorem c9_theorem :
    (∀ (existing : List String) (nm : String), resolveName existing nm ∉ existing) ∧
    (∀ ops : List Op, ((run (initState []) ops).fs.outputs.map Prod.fst).Nodup) ∧
    (run (initState []) c9Ops).fs.outputs = [(clipStr, [7]), (clip1Str, [8])] ∧
    clipStr ≠ clip1Str := by
  refine ⟨resolveName_not_mem, ?_, by decide, by decide⟩
  intro ops
  exact outputs_nodup_run (initState []) (by simp [initState]) ops

/-! ### C10: any parseable integer part number is accepted and counted -/

def plainAsset : Asset :=
  { name := clipStr, filesize := none, filetype := octetStream, numParts := 1,
    partsReceived := [], isRealtime := false, complete := false, nextRealtimePart := none }

def c10St : ServerState :=
  (createAsset (initState []) aId (some clipStr) none none false).1

def c10Ops : List Op :=
  [Op.createAsset aId (some clipStr) none none false,
   Op.uploadPart aId (.value 7) [3, 1, 4]]

/-- C10: a part upload addressed to a known asset with any parseable integer
part number — zero, negative, or beyond `expected_parts` — is accepted with
status 200, and it is staged and counted: if the updated distinct-part count
stays below `expected_parts` (or the asset is realtime), the part is staged
on disk and recorded in `parts_received` untouched otherwise; readiness is
decided solely by comparing that count to `expected_parts`, and when the
count reaches it, assembly produces one more output file; in particular a
single part numbered 7 uploaded to a one-part asset is assembled alone. -/
theorem c10_theorem (st : ServerState) (id : String) (a : Asset) (p : Int) (body : Bytes)
    (hA : getA st.assets id = some a) :
    ((uploadPart st id (.value p) body).2.code = 200) ∧
    (¬(a.isRealtime = false ∧ (setA a.partsReceived p body.length).length ≥ a.numParts) →
      getA (uploadPart st id (.value p) body).1.fs.parts id
          = some (setA ((getA st.fs.parts id).getD []) p body) ∧
      getA (uploadPart st id (.value p) body).1.assets id
          = some { a with partsReceived := setA a.partsReceived p body.length }) ∧
    ((a.isRealtime = false ∧ (setA a.partsReceived p body.length).length ≥ a.numParts) →
      a.complete = false →
      ((uploadPart st id (.value p) body).1.fs.outputs).length
        = st.fs.outputs.length + 1) ∧
    (run (initState []) c10Ops).fs.outputs = [(clipStr, [3, 1, 4])] := by
  refine ⟨?_, ?_, ?_, by decide⟩
  · simp only [uploadPart, parsePart, hA]
    by_cases hr : a.isRealtime = false ∧
        (setA a.partsReceived p body.length).length ≥ a.numParts
    · simp [hr]
    · simp [hr]
  · intro hr
    simp only [uploadPart, parsePart, hA, if_neg hr]
    constructor
    · simp [stagePart, getA_setA_self]
    · simp [getA_setA_self]
  · intro hr hc
    simp only [uploadPart, parsePart, hA, if_pos hr]
    unfold assembleFile
    rw [getA_setA_self]
    simp only [hc, Bool.false_eq_true, if_false]
    have hparts : getA (stagePart st.fs id p body).parts id
        = some (setA ((getA st.fs.parts id).getD []) p body) := by
      simp [stagePart, getA_setA_self]
    rw [hparts]
    simp [pruneState, stagePart]

theorem c10_witness :
    (uploadPart c10St aId (.value 7) [3, 1, 4]).2.code = 200 ∧
    ((uploadPart c10St aId (.value 7) [3, 1, 4]).1.fs.outputs).length
      = c10St.fs.outputs.length + 1 := by
  have h := c10_theorem c10St aId plainAsset 7 [3, 1, 4] (by decide)
  exact ⟨h.1, h.2.2.1 (by decide) (by decide)⟩

/-! ### C3: assembly runs at most once per asset -/

theorem setA_setA [DecidableEq κ] (m : List (κ × β)) (k : κ) (v w : β) :
    setA (setA m k v) k w = setA m k w := by
  induction m with
  | nil => simp [setA]
  | cons e rest ih =>
      obtain ⟨k₀, v₀⟩ := e
      by_cases h0 : k₀ = k
      · subst h0
        simp [setA]
      · simp [setA, h0, ih]

theorem mem_setA_self_eq [DecidableEq κ] {m : List (κ × β)}
    (hm : (m.map Prod.fst).Nodup) {k : κ} {v w : β} (h : (k, w) ∈ setA m k v) : w = v := by
  induction m with
  | nil =>
      simp [setA] at h
      exact h
  | cons e rest ih =>
      obtain ⟨k₀, v₀⟩ := e
      rw [List.map_cons] at hm
      have hm' := List.nodup_cons.mp hm
      by_cases h0 : k₀ = k
      · have hset : setA ((k₀, v₀) :: rest) k v = (k, v) :: rest := by simp [setA, h0]
        rw [hset] at h
        rcases List.mem_cons.mp h with h1 | h1
        · exact ((Prod.mk.injEq k w k v).mp h1).2
        · rw [h0] at hm'
          exact absurd (List.mem_map_of_mem Prod.fst h1) hm'.1
      · have hset : setA ((k₀, v₀) :: rest) k v = (k₀, v₀) :: setA rest k v := by
          simp [setA, h0]
        rw [hset] at h
        rcases List.mem_cons.mp h with h1 | h1
        · exact absurd (congrArg Prod.fst h1).symm h0
        · exact ih hm'.2 h1

/-- `_assemble_file` either changes nothing, or the asset is present and
incomplete with a staged directory and the assembly effect is exactly one
output file, one log push, the flag set, the staging removed, the prune, and
the ghost id appended. -/
theorem assembleFile_disj (st : ServerState) (id : String) :
    assembleFile st id = st ∨
    (∃ a dir, getA st.assets id = some a ∧ a.complete = false ∧
      getA st.fs.parts id = some dir ∧
      assembleFile st id = pruneState { st with
        assets := setA st.assets id { a with complete := true },
        fs := { parts := eraseA st.fs.parts id,
                outputs := st.fs.outputs ++
                  [(resolveName (st.fs.outputs.map Prod.fst) a.name,
                    ((sortParts dir).map Prod.snd).flatten)] },
        uploadLog := (mkLogEntry (resolveName (st.fs.outputs.map Prod.fst) a.name)
          (((sortParts dir).map Prod.snd).flatten).length a.filetype :: st.uploadLog).take 500,
        assembled := st.assembled ++ [id] }) := by
  unfold assembleFile
  cases hA : getA st.assets id with
  | none => exact Or.inl rfl
  | some a =>
      by_cases hc : a.complete
      · left
        simp [hc]
      · cases hD : getA st.fs.parts id with
        | none =>
            left
            simp [hc, hD]
        | some dir =>
            right
            refine ⟨a, dir, rfl, by simpa using hc, rfl, ?_⟩
            simp [hc, hD]

/-- Asset ids of the creation requests in an operation sequence. -/
def createIds : List Op → List String
  | [] => []
  | Op.createAsset id _ _ _ _ :: rest => id :: createIds rest
  | _ :: rest => createIds rest

/-- Invariant carried through a run for the at-most-once-assembly argument. -/
def c3Inv (st : ServerState) (rest : List Op) : Prop :=
  (createIds rest).Nodup ∧
  (∀ id ∈ st.assembled, id ∉ createIds rest) ∧
  (∀ id ∈ st.assets.map Prod.fst, id ∉ createIds rest) ∧
  st.assembled.Nodup ∧
  (∀ id ∈ st.assembled, id ∉ st.assets.map Prod.fst) ∧
  (st.assets.map Prod.fst).Nodup ∧
  allIncomplete st

theorem c3Inv_base {st : ServerState} {rest : List Op} {id : String} {a' : Asset}
    (h1 : (createIds rest).Nodup)
    (h2 : ∀ i ∈ st.assembled, i ∉ createIds rest)
    (h3 : ∀ i ∈ st.assets.map Prod.fst, i ∉ createIds rest)
    (h4 : st.assembled.Nodup)
    (h5 : ∀ i ∈ st.assembled, i ∉ st.assets.map Prod.fst)
    (h6 : (st.assets.map Prod.fst).Nodup)
    (h7 : allIncomplete st)
    (hid : id ∈ st.assets.map Prod.fst)
    (ha' : a'.complete = false)
    (fs' : FS) (log' : List LogEntry) (iss' : List (String × List Nat)) :
    c3Inv { st with assets := setA st.assets id a', fs := fs', uploadLog := log', issued := iss' } rest := by
  have h7' : allIncomplete { st with assets := setA st.assets id a', fs := fs', uploadLog := log', issued := iss' } := by
    intro e he
    rcases mem_setA he with he | he
    · exact h7 e he
    · rw [he]
      exact ha'
  refine ⟨h1, h2, ?_, h4, ?_, keys_setA_nodup h6 id a', h7'⟩
  · intro i hi
    rcases (keys_setA_mem st.assets id i a').mp hi with hi | hi
    · exact h3 i hi
    · rw [hi]
      exact h3 id hid
  · intro i hi hmem
    rcases (keys_setA_mem st.assets id i a').mp hmem with hm | hm
    · exact h5 i hi hm
    · rw [hm] at hi
      exact h5 id hi hid

theorem c3Inv_after_assemble {st : ServerState} {rest : List Op} {id : String} {a' : Asset}
    (h1 : (createIds rest).Nodup)
    (h2 : ∀ i ∈ st.assembled, i ∉ createIds rest)
    (h3 : ∀ i ∈ st.assets.map Prod.fst, i ∉ createIds rest)
    (h4 : st.assembled.Nodup)
    (h5 : ∀ i ∈ st.assembled, i ∉ st.assets.map Prod.fst)
    (h6 : (st.assets.map Prod.fst).Nodup)
    (h7 : allIncomplete st)
    (hid : id ∈ st.assets.map Prod.fst)
    (ha' : a'.complete = false)
    (fs' : FS) (log' : List LogEntry) (iss' : List (String × List Nat)) :
    c3Inv (assembleFile { st with assets := setA st.assets id a', fs := fs', uploadLog := log', issued := iss' } id) rest := by
  have hbase := c3Inv_base h1 h2 h3 h4 h5 h6 h7 hid ha' fs' log' iss'
  rcases assembleFile_disj { st with assets := setA st.assets id a', fs := fs', uploadLog := log', issued := iss' } id with heq | ⟨b, dir, hb, hbc, hdir, heq⟩
  · rw [heq]
    exact hbase
  · rw [heq]
    have hidnag : id ∉ st.assembled := fun hmem => h5 id hmem hid
    refine ⟨h1, ?_, ?_, ?_, ?_, ?_, allIncomplete_pruneState _⟩
    · intro i hi
      simp only [pruneState, List.mem_append, List.mem_singleton] at hi
      rcases hi with hi | hi
      · exact h2 i hi
      · rw [hi]
        exact h3 id hid
    · intro i hi
      simp only [pruneState] at hi
      rcases List.mem_map.mp hi with ⟨e, he, rfl⟩
      have he' := (List.mem_filter.mp he).1
      have he2 := mem_setA (m := setA st.assets id a') he'
      rw [setA_setA] at he'
      rcases mem_setA he' with hm | hm
      · exact h3 e.1 (List.mem_map_of_mem Prod.fst hm)
      · rw [hm]
        exact h3 id hid
    · simp only [pruneState, List.nodup_append]
      exact ⟨h4, List.nodup_singleton id, by simpa using hidnag⟩
    · intro i hi hmem
      simp only [pruneState, List.mem_append, List.mem_singleton] at hi
      simp only [pruneState] at hmem
      rcases List.mem_map.mp hmem with ⟨e, he, rfl⟩
      obtain ⟨hein, hecomp⟩ := List.mem_filter.mp he
      rw [setA_setA] at hein
      rcases hi with hi | hi
      · rcases mem_setA hein with hm | hm
        · exact h5 e.1 hi (List.mem_map_of_mem Prod.fst hm)
        · rw [hm] at hi
          exact hidnag hi
      · obtain ⟨k, w⟩ := e
        have hk : k = id := hi
        subst hk
        have hw := mem_setA_self_eq h6 hein
        rw [hw] at hecomp
        simp at hecomp
    · simp only [pruneState]
      have hsub : List.Sublist (((setA (setA st.assets id a') id { b with complete := true }).filter (fun e => e.2.complete = false)).map Prod.fst) ((setA (setA st.assets id a') id { b with complete := true }).map Prod.fst) :=
        List.Sublist.map Prod.fst (List.filter_sublist _)
      have hnd : ((setA (setA st.assets id a') id { b with complete := true }).map
          Prod.fst).Nodup := by
        rw [setA_setA]
        exact keys_setA_nodup h6 id _
      exact hnd.sublist hsub

theorem c3Inv_step {st : ServerState} {op : Op} {rest : List Op}
    (h : c3Inv st (op :: rest)) : c3Inv (step st op).1 rest := by
  obtain ⟨h1, h2, h3, h4, h5, h6, h7⟩ := h
  cases op with
  | createAsset id nm fsz ft rt =>
      have h1c : (id :: createIds rest).Nodup := h1
      have h1' : (createIds rest).Nodup := (List.nodup_cons.mp h1c).2
      have hfresh : id ∉ createIds rest := (List.nodup_cons.mp h1c).1
      refine ⟨h1', ?_, ?_, h4, ?_, ?_, allIncomplete_step h7 _⟩
      · intro i hi
        exact fun hmem => h2 i hi (List.mem_cons_of_mem id hmem)
      · intro i hi
        simp only [step, createAsset] at hi
        rcases (keys_setA_mem st.assets id i _).mp hi with hm | hm
        · exact fun hmem => h3 i hm (List.mem_cons_of_mem id hmem)
        · rw [hm]
          exact hfresh
      · intro i hi
        simp only [step, createAsset]
        intro hmem
        rcases (keys_setA_mem st.assets id i _).mp hmem with hm | hm
        · exact h5 i hi hm
        · rw [hm] at hi
          exact h2 id hi (List.mem_cons_self id _)
      · simp only [step, createAsset]
        exact keys_setA_nodup h6 id _
  | uploadPart id pp body =>
      cases hp : parsePart pp with
      | none =>
          simp only [step, uploadPart, hp]
          exact ⟨h1, h2, h3, h4, h5, h6, h7⟩
      | some p =>
          cases hA : getA st.assets id with
          | none =>
              simp only [step, uploadPart, hp, hA]
              exact ⟨h1, h2, h3, h4, h5, h6, h7⟩
          | some a =>
              have hid : id ∈ st.assets.map Prod.fst :=
                List.mem_map_of_mem Prod.fst (getA_mem hA)
              have hac : a.complete = false := h7 _ (getA_mem hA)
              simp only [step, uploadPart, hp, hA]
              split
              · refine c3Inv_after_assemble h1 h2 h3 h4 h5 h6 h7 hid ?_ _ _ _
                exact hac
              · refine c3Inv_base h1 h2 h3 h4 h5 h6 h7 hid ?_ _ _ _
                exact hac
  | createRealtimeParts id =>
      cases hA : getA st.assets id with
      | none =>
          simp only [step, createRealtimeParts, hA]
          exact ⟨h1, h2, h3, h4, h5, h6, h7⟩
      | some a =>
          have hid : id ∈ st.assets.map Prod.fst :=
            List.mem_map_of_mem Prod.fst (getA_mem hA)
          have hac : a.complete = false := h7 _ (getA_mem hA)
          simp only [step, createRealtimeParts, hA]
          refine c3Inv_base h1 h2 h3 h4 h5 h6 h7 hid ?_ _ _ _
          exact hac
  | completeRealtime id =>
      cases hA : getA st.assets id with
      | none =>
          simp only [step, completeRealtime, hA]
          exact ⟨h1, h2, h3, h4, h5, h6, h7⟩
      | some a =>
          have hid : id ∈ st.assets.map Prod.fst :=
            List.mem_map_of_mem Prod.fst (getA_mem hA)
          have hac : a.complete = false := h7 _ (getA_mem hA)
          simp only [step, completeRealtime, hA]
          refine c3Inv_after_assemble h1 h2 h3 h4 h5 h6 h7 hid ?_ _ _ _
          exact hac

/-- Every effective assembly adds exactly one output file and one ghost
`assembled` entry. -/
theorem assembleFile_count (st : ServerState) (id : String) :
    (assembleFile st id).fs.outputs.length + st.assembled.length
      = st.fs.outputs.length + (assembleFile st id).assembled.length := by
  rcases assembleFile_disj st id with heq | ⟨b, dir, hb, hbc, hdir, heq⟩
  · rw [heq]
  · rw [heq]
    simp only [pruneState, List.length_append, List.length_singleton]
    omega

theorem step_count (st : ServerState) (op : Op) :
    (step st op).1.fs.outputs.length + st.assembled.length
      = st.fs.outputs.length + (step st op).1.assembled.length := by
  cases op with
  | createAsset id nm fsz ft rt => rfl
  | uploadPart id pp body =>
      cases hp : parsePart pp with
      | none => simp [step, uploadPart, hp]
      | some p =>
          cases hA : getA st.assets id with
          | none => simp [step, uploadPart, hp, hA]
          | some a =>
              simp only [step, uploadPart, hp, hA]
              split
              · exact assembleFile_count _ _
              · rfl
  | createRealtimeParts id =>
      cases hA : getA st.assets id with
      | none => simp [step, createRealtimeParts, hA]
      | some a => simp [step, createRealtimeParts, hA]
  | completeRealtime id =>
      cases hA : getA st.assets id with
      | none => simp [step, completeRealtime, hA]
      | some a =>
          simp only [step, completeRealtime, hA]
          exact assembleFile_count _ _

theorem run_count (ops : List Op) :
    ∀ st : ServerState, (run st ops).fs.outputs.length + st.assembled.length
      = st.fs.outputs.length + (run st ops).assembled.length := by
  induction ops with
  | nil => intro st; rfl
  | cons op ops ih =>
      intro st
      have hs := step_count st op
      have hr := ih (step st op).1
      simp only [run]
      omega

theorem c3Inv_run (ops : List Op) :
    ∀ st : ServerState, c3Inv st ops → c3Inv (run st ops) [] := by
  induction ops with
  | nil => intro st h; exact h
  | cons op ops ih => intro st h; exact ih _ (c3Inv_step h)

theorem c3Inv_initState (files : List DiskFile) (ops : List Op)
    (h : (createIds ops).Nodup) : c3Inv (initState files) ops := by
  refine ⟨h, ?_, ?_, ?_, ?_, ?_, allIncomplete_initState files⟩ <;>
    simp [initState, List.Nodup]

/-- C3: assembly runs at most once per asset.  Under the system's own usage
discipline (asset ids handed to `create_asset` are fresh — the ids in
`createIds ops` are pairwise distinct), every run from startup performs the
assembly effect at most once per asset id (`assembled` counts effective
`_assemble_file` executions), and each effective assembly contributes exactly
one final output file: the number of output files is always the number of
assemblies performed plus the files already on disk at startup.  The
`complete` flag story is the pruning invariant: the assembler is the only
writer of `complete`, and the entry is removed in the same step, so a second
`incomplete → complete` transition for the same registry entry is
impossible — a duplicate delivery of the last part finds no asset and is
rejected. -/
theorem c3_theorem (files : List DiskFile) (ops : List Op) (id : String)
    (h : (createIds ops).Nodup) :
    List.count id (run (initState files) ops).assembled ≤ 1 ∧
    (run (initState files) ops).fs.outputs.length
      = (run (initState files) ops).assembled.length + files.length := by
  have hinv := c3Inv_run ops (initState files) (c3Inv_initState files ops h)
  obtain ⟨-, -, -, hnd, -, -, -⟩ := hinv
  constructor
  · exact List.nodup_iff_count_le_one.mp hnd id
  · have hc := run_count ops (initState files)
    have ha : (initState files).assembled.length = 0 := rfl
    have hb : (initState files).fs.outputs.length = files.length := by
      simp [initState]
    omega

def c3Ops : List Op :=
  [Op.createAsset aId (some clipStr) none none false,
   Op.uploadPart aId (.value 1) [7],
   Op.uploadPart aId (.value 1) [7]]

theorem c3_witness :
    (createIds c3Ops).Nodup ∧
    (List.count aId (run (initState []) c3Ops).assembled ≤ 1 ∧
      (run (initState []) c3Ops).fs.outputs.length
        = (run (initState []) c3Ops).assembled.length + ([] : List DiskFile).length) :=
  ⟨by decide, c3_theorem [] c3Ops aId (by decide)⟩

/-! ### C7: the 500-entry upload-log bound -/

theorem setA_append [DecidableEq κ] {m : List (κ × β)} {k : κ} (v : β)
    (h : k ∉ m.map Prod.fst) : setA m k v = m ++ [(k, v)] := by
  induction m with
  | nil => rfl
  | cons e rest ih =>
      obtain ⟨k', v'⟩ := e
      simp only [List.map_cons, List.mem_cons] at h
      push_neg at h
      simp [setA, Ne.symm h.1, ih h.2]

theorem decDigits_ne_nil (n : Nat) (h : 1 ≤ n) : decDigits n ≠ [] := by
  obtain ⟨m, rfl⟩ : ∃ m, n = m + 1 := ⟨n - 1, by omega⟩
  have hu : toDigitsRev (m + 1) (m + 1) = ((m + 1) % 10) :: toDigitsRev m ((m + 1) / 10) := rfl
  simp [decDigits, hu]

theorem natStr_data (n : Nat) (h : 1 ≤ n) :
    (natStr n).data = (decDigits n).map digitChar := by
  have hn : ¬n = 0 := by omega
  simp [natStr, hn]

theorem slash_not_mem_natStr (n : Nat) (h : 1 ≤ n) : slashChar ∉ (natStr n).data := by
  rw [natStr_data n h]
  intro hmem
  rcases List.mem_map.mp hmem with ⟨d, hd, he⟩
  have hlt := decDigits_lt_ten n d hd
  have ht := digitChar_toNat d hlt
  rw [he] at ht
  have h47 : slashChar.toNat = 47 := rfl
  omega

theorem natStr_data_ne_nil (n : Nat) (h : 1 ≤ n) : (natStr n).data ≠ [] := by
  rw [natStr_data n h]
  simp [decDigits_ne_nil n h]

theorem natStr_data_ne_dot (n : Nat) (h : 1 ≤ n) : (natStr n).data ≠ [dotChar] := by
  rw [natStr_data n h]
  intro heq
  cases hd : decDigits n with
  | nil => rw [hd] at heq; simp at heq
  | cons d ds =>
      rw [hd] at heq
      simp only [List.map_cons, List.cons.injEq] at heq
      have hlt := decDigits_lt_ten n d (by rw [hd]; exact List.mem_cons_self d ds)
      have ht := digitChar_toNat d hlt
      rw [heq.1] at ht
      have h46 : dotChar.toNat = 46 := rfl
      omega

theorem splitSlash_no_slash : ∀ cs : List Char, slashChar ∉ cs → splitSlash cs = [cs] := by
  intro cs
  induction cs with
  | nil => intro _; rfl
  | cons c cs ih =>
      intro h
      simp only [List.mem_cons] at h
      push_neg at h
      have hcs := ih h.2
      simp [splitSlash, hcs, Ne.symm h.1]

theorem pyBaseName_plain {s : String} (hslash : slashChar ∉ s.data)
    (hne : s.data ≠ []) (hdot : s.data ≠ [dotChar]) : pyBaseName s = s := by
  unfold pyBaseName
  rw [splitSlash_no_slash s.data hslash]
  simp [List.filter, hne, hdot]

theorem sanitizeName_plain {s : String} (id : String) (hslash : slashChar ∉ s.data)
    (hne : s.data ≠ []) (hdot : s.data ≠ [dotChar]) :
    sanitizeName (some s) id = s := by
  have hbase := pyBaseName_plain hslash hne hdot
  have hs : ¬s = "" := fun h => hne (by rw [h])
  simp [sanitizeName, hbase, hs]

theorem resolveName_free {existing : List String} {nm : String} (h : nm ∉ existing) :
    resolveName existing nm = nm := by
  simp [resolveName, h]

/-- Asset id of the `i`-th asset of the C7 scenario, `str(i + 1)`. -/
def fid (i : Nat) : String := natStr (i + 1)

theorem fid_inj {i j : Nat} (h : fid i = fid j) : i = j := by
  have := natStr_inj (by omega) (by omega) h
  omega

theorem fid_plain (i : Nat) : sanitizeName (some (fid i)) (fid i) = fid i :=
  sanitizeName_plain (fid i) (slash_not_mem_natStr _ (by omega))
    (natStr_data_ne_nil _ (by omega)) (natStr_data_ne_dot _ (by omega))

theorem fid_not_mem_range (k : Nat) : fid k ∉ (List.range k).map fid := by
  intro h
  rcases List.mem_map.mp h with ⟨i, hi, he⟩
  have := fid_inj he
  have := List.mem_range.mp hi
  omega

/-- Registry entry created for one C7 scenario asset. -/
def c7Asset (id : String) : Asset :=
  { name := id, filesize := none, filetype := octetStream, numParts := 1,
    partsReceived := [], isRealtime := false, complete := false,
    nextRealtimePart := none }

/-- Log entry left behind by the `i`-th asset of the C7 scenario. -/
def c7Entry (i : Nat) : LogEntry := mkLogEntry (fid i) 1 octetStream

/-- Create one one-part asset and deliver its single part. -/
def c7CycleOps (id : String) : List Op :=
  [Op.createAsset id (some id) none none false,
   Op.uploadPart id (.value 1) [7]]

/-- Sequentially create and assemble `k` distinct one-part assets. -/
def c7Ops (k : Nat) : List Op :=
  ((List.range k).map (fun i => c7CycleOps (fid i))).flatten

/-- Effect of one create-and-deliver cycle on a state whose registry and
staging area are empty: exactly one output file appears, one log entry is
pushed on the front of the bounded log, and the registry is empty again. -/
theorem c7_cycle (st : ServerState) (id : String)
    (hassets : st.assets = [])
    (hparts : st.fs.parts = [])
    (hname : sanitizeName (some id) id = id)
    (hout : id ∉ st.fs.outputs.map Prod.fst)
    (hiss : id ∉ st.issued.map Prod.fst) :
    run st (c7CycleOps id)
      = { assets := [],
          uploadLog := (mkLogEntry id 1 octetStream :: st.uploadLog).take 500,
          fs := { parts := [], outputs := st.fs.outputs ++ [(id, [7])] },
          assembled := st.assembled ++ [id],
          issued := st.issued ++ [(id, [1])] } := by
  have hsetiss : setA st.issued id [1] = st.issued ++ [(id, [1])] :=
    setA_append [1] hiss
  have hres : resolveName (st.fs.outputs.map Prod.fst) id = id :=
    resolveName_free hout
  simp only [c7CycleOps, run, step, createAsset, uploadPart, parsePart, computeNumParts,
    hname, hassets, hparts, hsetiss, hres, stagePart, assembleFile, pruneState, sortParts,
    sortLe, insertLe, setA, getA, eraseA, mkLogEntry]
  simp [hsetiss, setA, sortLe, insertLe, hres]

theorem take_cons_take (x : α) (l : List α) :
    (x :: l.take 500).take 500 = (x :: l).take 500 := by
  show (x :: l.take 500).take (499 + 1) = (x :: l).take (499 + 1)
  rw [List.take_succ_cons, List.take_succ_cons, List.take_take]
  norm_num

/-- Closed form of the state after the first `k` cycles of the C7 scenario:
the log is the 500 newest of the `k` entries, newest first. -/
theorem c7_run (k : Nat) :
    run (initState []) (c7Ops k)
      = { assets := [],
          uploadLog := (((List.range k).map c7Entry).reverse).take 500,
          fs := { parts := [],
                  outputs := (List.range k).map (fun i => (fid i, ([7] : Bytes))) },
          assembled := (List.range k).map fid,
          issued := (List.range k).map (fun i => (fid i, ([1] : List Nat))) } := by
  induction k with
  | zero => simp [c7Ops, initState, scanLog, sortLe, run]
  | succ k ih =>
      have hops : c7Ops (k + 1) = c7Ops k ++ c7CycleOps (fid k) := by
        simp [c7Ops, List.range_succ]
      have hout : fid k ∉ ((List.range k).map (fun i => (fid i, ([7] : Bytes)))).map Prod.fst := by
        simpa [List.map_map, Function.comp] using fid_not_mem_range k
      have hiss : fid k ∉ ((List.range k).map (fun i => (fid i, ([1] : List Nat)))).map Prod.fst := by
        simpa [List.map_map, Function.comp] using fid_not_mem_range k
      rw [hops, run_append, ih, c7_cycle _ _ rfl rfl (fid_plain k) hout hiss]
      simp only [List.range_succ, List.map_append, List.map_cons, List.map_nil,
        List.reverse_append, List.reverse_cons, List.reverse_nil, List.nil_append,
        List.cons_append, List.singleton_append]
      rw [take_cons_take]
      rfl

theorem c7Entry_inj {i j : Nat} (h : c7Entry i = c7Entry j) : i = j :=
  fid_inj (congrArg LogEntry.name h)

theorem assembleFile_logBound {st : ServerState} (h : st.uploadLog.length ≤ 500)
    (id : String) : (assembleFile st id).uploadLog.length ≤ 500 := by
  rcases assembleFile_disj st id with heq | ⟨b, dir, _, _, _, heq⟩
  · rw [heq]; exact h
  · rw [heq]
    simp only [pruneState, List.length_take]
    omega

theorem step_logBound {st : ServerState} (h : st.uploadLog.length ≤ 500) (op : Op) :
    (step st op).1.uploadLog.length ≤ 500 := by
  cases op with
  | createAsset id nm fsz ft rt => exact h
  | uploadPart id pp body =>
      cases hp : parsePart pp with
      | none => simpa [step, uploadPart, hp] using h
      | some p =>
          cases hA : getA st.assets id with
          | none => simpa [step, uploadPart, hp, hA] using h
          | some a =>
              simp only [step, uploadPart, hp, hA]
              split
              · refine assembleFile_logBound ?_ id
                exact h
              · exact h
  | createRealtimeParts id =>
      cases hA : getA st.assets id with
      | none => simpa [step, createRealtimeParts, hA] using h
      | some a => simpa [step, createRealtimeParts, hA] using h
  | completeRealtime id =>
      cases hA : getA st.assets id with
      | none => simpa [step, completeRealtime, hA] using h
      | some a =>
          simp only [step, completeRealtime, hA]
          refine assembleFile_logBound ?_ id
          exact h

theorem run_logBound (ops : List Op) :
    ∀ st : ServerState, st.uploadLog.length ≤ 500 →
      (run st ops).uploadLog.length ≤ 500 := by
  induction ops with
  | nil => intro st h; exact h
  | cons op ops ih => intro st h; exact ih _ (step_logBound h op)

theorem initState_logBound (files : List DiskFile) :
    (initState files).uploadLog.length ≤ 500 := by
  simp only [initState, scanLog, List.length_map, List.length_take]
  omega

theorem c7_final_log :
    (run (initState []) (c7Ops 501)).uploadLog
      = ((List.range' 1 500).map c7Entry).reverse := by
  rw [c7_run 501]
  have h1 : List.range 501 = 0 :: List.range' 1 500 := by
    rw [List.range_eq_range']
    rfl
  rw [h1]
  simp only [List.map_cons, List.reverse_cons]
  exact List.take_left' (by simp)

/-- C7: the upload history is bounded to the 500 most recent entries, oldest
evicted first.  In every state reachable from startup the log holds at most
500 entries; a successful assembly pushes its entry on the front (truncating
to 500); and after sequentially creating and assembling 501 distinct
one-part assets the log holds exactly the 500 newest entries, newest first —
the entry of the first (oldest) asset is the one evicted, every later
asset's entry is present. -/
theorem c7_theorem (files : List DiskFile) (ops : List Op) :
    (run (initState files) ops).uploadLog.length ≤ 500 ∧
    (∀ st : ServerState, ∀ id : String, assembleFile st id = st ∨
      ∃ e : LogEntry, (assembleFile st id).uploadLog = (e :: st.uploadLog).take 500) ∧
    (run (initState []) (c7Ops 501)).uploadLog
      = ((List.range' 1 500).map c7Entry).reverse ∧
    (run (initState []) (c7Ops 501)).uploadLog.length = 500 ∧
    c7Entry 0 ∉ (run (initState []) (c7Ops 501)).uploadLog ∧
    (∀ i ∈ List.range' 1 500, c7Entry i ∈ (run (initState []) (c7Ops 501)).uploadLog) := by
  refine ⟨run_logBound ops (initState files) (initState_logBound files), ?_, c7_final_log,
    ?_, ?_, ?_⟩
  · intro st id
    rcases assembleFile_disj st id with heq | ⟨b, dir, hb, hbc, hdir, heq⟩
    · exact Or.inl heq
    · refine Or.inr ⟨mkLogEntry (resolveName (st.fs.outputs.map Prod.fst) b.name)
        ((sortParts dir).map Prod.snd).flatten.length b.filetype, ?_⟩
      rw [heq]
      rfl
  · rw [c7_final_log]
    simp
  · rw [c7_final_log]
    intro hmem
    rw [List.mem_reverse] at hmem
    rcases List.mem_map.mp hmem with ⟨i, hi, he⟩
    have hij := c7Entry_inj he
    have := List.mem_range'_1.mp hi
    omega
  · intro i hi
    rw [c7_final_log, List.mem_reverse]
    exact List.mem_map_of_mem c7Entry hi

/-! ### C8: realtime extension batches -/

theorem getA_of_mem_nodup [DecidableEq κ] {m : List (κ × β)} {k : κ} {v : β}
    (hnd : (m.map Prod.fst).Nodup) (h : (k, v) ∈ m) : getA m k = some v := by
  induction m with
  | nil => simp at h
  | cons e rest ih =>
      obtain ⟨k', v'⟩ := e
      simp only [List.map_cons, List.nodup_cons] at hnd
      rcases List.mem_cons.mp h with he | he
      · rw [Prod.mk.injEq] at he
        obtain ⟨rfl, rfl⟩ := he
        simp [getA]
      · have hne : k' ≠ k := by
          intro hk
          exact hnd.1 (hk ▸ List.mem_map_of_mem Prod.fst he)
        simp [getA, hne, ih hnd.2 he]

/-- Registry-key distinctness is preserved by every handler. -/
theorem assetKeys_nodup_assembleFile {st : ServerState}
    (h : (st.assets.map Prod.fst).Nodup) (id : String) :
    ((assembleFile st id).assets.map Prod.fst).Nodup := by
  rcases assembleFile_disj st id with heq | ⟨b, dir, hb, hbc, hdir, heq⟩
  · rw [heq]; exact h
  · rw [heq]
    simp only [pruneState]
    have hsub : List.Sublist (((setA st.assets id { b with complete := true }).filter (fun e => e.2.complete = false)).map Prod.fst) ((setA st.assets id { b with complete := true }).map Prod.fst) :=
      List.Sublist.map Prod.fst (List.filter_sublist _)
    exact (keys_setA_nodup h id _).sublist hsub

theorem assetKeys_nodup_step {st : ServerState}
    (h : (st.assets.map Prod.fst).Nodup) (op : Op) :
    ((step st op).1.assets.map Prod.fst).Nodup := by
  cases op with
  | createAsset id nm fsz ft rt => exact keys_setA_nodup h id _
  | uploadPart id pp body =>
      cases hp : parsePart pp with
      | none => simpa [step, uploadPart, hp] using h
      | some p =>
          cases hA : getA st.assets id with
          | none => simpa [step, uploadPart, hp, hA] using h
          | some a =>
              simp only [step, uploadPart, hp, hA]
              split
              · refine assetKeys_nodup_assembleFile ?_ id
                exact keys_setA_nodup h id _
              · exact keys_setA_nodup h id _
  | createRealtimeParts id =>
      cases hA : getA st.assets id with
      | none => simpa [step, createRealtimeParts, hA] using h
      | some a =>
          simp only [step, createRealtimeParts, hA]
          exact keys_setA_nodup h id _
  | completeRealtime id =>
      cases hA : getA st.assets id with
      | none => simpa [step, completeRealtime, hA] using h
      | some a =>
          simp only [step, completeRealtime, hA]
          refine assetKeys_nodup_assembleFile ?_ id
          exact keys_setA_nodup h id _

theorem assetKeys_nodup_run (ops : List Op) :
    ∀ st : ServerState, (st.assets.map Prod.fst).Nodup →
      ((run st ops).assets.map Prod.fst).Nodup := by
  induction ops with
  | nil => intro st h; exact h
  | cons op ops ih => intro st h; exact ih _ (assetKeys_nodup_step h op)

/-- If an id still resolves after an assembly, its entry is untouched: the
assembler rewrites only the assembled id's entry, and that entry is pruned. -/
theorem getA_assembleFile_assets {st : ServerState} {id' id : String} {a : Asset}
    (hnd : (st.assets.map Prod.fst).Nodup)
    (h : getA (assembleFile st id').assets id = some a) :
    getA st.assets id = some a := by
  rcases assembleFile_disj st id' with heq | ⟨b, dir, hb, hbc, hdir, heq⟩
  · rw [heq] at h; exact h
  · rw [heq] at h
    simp only [pruneState] at h
    have hmem := getA_mem h
    obtain ⟨hin, hcomp⟩ := List.mem_filter.mp hmem
    by_cases hii : id = id'
    · subst hii
      have := mem_setA_self_eq hnd hin
      rw [this] at hcomp
      simp at hcomp
    · rcases mem_setA hin with hm | hm
      · exact getA_of_mem_nodup hnd hm
      · rw [Prod.mk.injEq] at hm
        exact absurd hm.1 hii

theorem assembleFile_issued (st : ServerState) (id : String) :
    (assembleFile st id).issued = st.issued := by
  rcases assembleFile_disj st id with heq | ⟨b, dir, _, _, _, heq⟩ <;> rw [heq]
  rfl

/-- C8 run invariant: as long as no completion signal has arrived for `id`,
the next-part counter sits exactly one past `num_parts` and the locators
issued so far are exactly `1..num_parts`. -/
def c8Inv (id : String) (st : ServerState) : Prop :=
  ∀ a : Asset, getA st.assets id = some a →
    a.nextRealtimePart.getD (a.numParts + 1) = a.numParts + 1 ∧
    getA st.issued id = some (List.range' 1 a.numParts)

theorem c8Inv_step {id : String} {st : ServerState} {op : Op}
    (hnd : (st.assets.map Prod.fst).Nodup)
    (hinv : c8Inv id st) (hop : op ≠ Op.completeRealtime id) :
    c8Inv id (step st op).1 := by
  cases op with
  | createAsset id' nm fsz ft rt =>
      intro a ha
      by_cases hii : id' = id
      · subst hii
        simp only [step, createAsset] at ha ⊢
        rw [getA_setA_self] at ha
        injection ha with ha
        subst ha
        exact ⟨rfl, by rw [getA_setA_self]⟩
      · simp only [step, createAsset] at ha ⊢
        rw [getA_setA_ne _ _ _ _ (fun e => hii e.symm)] at ha
        rw [getA_setA_ne _ _ _ _ (fun e => hii e.symm)]
        exact hinv a ha
  | uploadPart id' pp body =>
      cases hp : parsePart pp with
      | none => simpa [step, uploadPart, hp] using hinv
      | some p =>
          cases hA : getA st.assets id' with
          | none => simpa [step, uploadPart, hp, hA] using hinv
          | some b =>
              simp only [step, uploadPart, hp, hA]
              split
              · intro a ha
                have hnd' : ((setA st.assets id'
                    { b with partsReceived := setA b.partsReceived p body.length
                      }).map Prod.fst).Nodup := keys_setA_nodup hnd id' _
                have ha' := getA_assembleFile_assets hnd' ha
                by_cases hii : id' = id
                · subst hii
                  rw [getA_setA_self] at ha'
                  injection ha' with ha'
                  subst ha'
                  have hv := hinv b hA
                  refine ⟨hv.1, ?_⟩
                  show getA (assembleFile _ _).issued _ = _
                  rw [assembleFile_issued]
                  exact hv.2
                · rw [getA_setA_ne _ _ _ _ (fun e => hii e.symm)] at ha'
                  have hv := hinv a ha'
                  refine ⟨hv.1, ?_⟩
                  show getA (assembleFile _ _).issued _ = _
                  rw [assembleFile_issued]
                  exact hv.2
              · intro a ha
                by_cases hii : id' = id
                · subst hii
                  rw [getA_setA_self] at ha
                  injection ha with ha
                  subst ha
                  have := hinv b hA
                  exact ⟨this.1, this.2⟩
                · rw [getA_setA_ne _ _ _ _ (fun e => hii e.symm)] at ha
                  exact hinv a ha
  | createRealtimeParts id' =>
      cases hA : getA st.assets id' with
      | none => simpa [step, createRealtimeParts, hA] using hinv
      | some b =>
          simp only [step, createRealtimeParts, hA]
          intro a ha
          by_cases hii : id' = id
          · subst hii
            rw [getA_setA_self] at ha
            injection ha with ha
            subst ha
            obtain ⟨hnext, hiss⟩ := hinv b hA
            refine ⟨by simp only [Option.getD_some, hnext]; omega, ?_⟩
            rw [getA_setA_self, hiss]
            simp only [Option.getD_some, hnext]
            have hr : List.range' 1 b.numParts ++ List.range' (b.numParts + 1) 5
                = List.range' 1 (b.numParts + 5) := by
              have := List.range'_append 1 b.numParts 5 1
              simpa [Nat.add_comm] using this
            rw [hr]
            have hn : b.numParts + 1 + 5 - 1 = b.numParts + 5 := by omega
            rw [hn]
          · rw [getA_setA_ne _ _ _ _ (fun e => hii e.symm)] at ha
            rw [getA_setA_ne _ _ _ _ (fun e => hii e.symm)]
            exact hinv a ha
  | completeRealtime id' =>
      have hii : id' ≠ id := fun h => hop (by rw [h])
      cases hA : getA st.assets id' with
      | none => simpa [step, completeRealtime, hA] using hinv
      | some b =>
          simp only [step, completeRealtime, hA]
          intro a ha
          have hnd' : ((setA st.assets id'
              { b with numParts := b.partsReceived.length }).map Prod.fst).Nodup :=
            keys_setA_nodup hnd id' _
          have ha' := getA_assembleFile_assets hnd' ha
          rw [getA_setA_ne _ _ _ _ (fun e => hii e.symm)] at ha'
          have hv := hinv a ha'
          refine ⟨hv.1, ?_⟩
          rw [assembleFile_issued]
          exact hv.2

theorem c8Inv_run (id : String) (ops : List Op) :
    ∀ st : ServerState, (st.assets.map Prod.fst).Nodup → c8Inv id st →
      Op.completeRealtime id ∉ ops → c8Inv id (run st ops) := by
  induction ops with
  | nil => intro st _ h _; exact h
  | cons op ops ih =>
      intro st hnd h hno
      simp only [List.mem_cons] at hno
      push_neg at hno
      exact ih _ (assetKeys_nodup_step hnd op)
        (c8Inv_step hnd h (fun e => hno.1 e.symm)) hno.2

theorem c8Inv_initState (id : String) (files : List DiskFile) :
    c8Inv id (initState files) := by
  intro a ha
  simp [initState, getA] at ha

/-- C8: a realtime asset starts with one expected part, and — as long as no
completion signal has been sent for the asset — an extension request returns
exactly the five locators `num_parts+1 .. num_parts+5`, none of which was
issued before, and leaves `num_parts` five higher.  (The no-completion
hypothesis is needed: `complete_realtime_upload` shrinks `num_parts` to the
number of received parts without resetting the issued locators, after which
the next batch re-issues old numbers.) -/
theorem c8_theorem (files : List DiskFile) (ops : List Op) (id : String) (a : Asset)
    (hno : Op.completeRealtime id ∉ ops)
    (ha : getA (run (initState files) ops).assets id = some a) :
    (∀ fsz : Option Nat, computeNumParts fsz true = 1) ∧
    (createRealtimeParts (run (initState files) ops) id).2.urls
      = List.range' (a.numParts + 1) 5 ∧
    getA (run (initState files) ops).issued id = some (List.range' 1 a.numParts) ∧
    (∀ q ∈ (createRealtimeParts (run (initState files) ops) id).2.urls,
      q ∉ List.range' 1 a.numParts) ∧
    (∃ a', getA (createRealtimeParts (run (initState files) ops) id).1.assets id = some a'
      ∧ a'.numParts = a.numParts + 5) := by
  have hndi : ((initState files).assets.map Prod.fst).Nodup := by simp [initState]
  have hinv := c8Inv_run id ops (initState files) hndi (c8Inv_initState id files) hno
  obtain ⟨hnext, hiss⟩ := hinv a ha
  refine ⟨?_, ?_, hiss, ?_, ?_⟩
  · intro fsz
    cases fsz <;> simp [computeNumParts]
  · simp only [createRealtimeParts, ha, hnext]
  · intro q hq
    simp only [createRealtimeParts, ha, hnext] at hq
    have h1 := List.mem_range'_1.mp hq
    intro hq2
    have h2 := List.mem_range'_1.mp hq2
    omega
  · refine ⟨{ a with nextRealtimePart := some (a.nextRealtimePart.getD (a.numParts + 1) + 5), numParts := a.nextRealtimePart.getD (a.numParts + 1) + 5 - 1 }, ?_, ?_⟩
    · simp only [createRealtimeParts, ha]
      exact getA_setA_self _ _ _
    · simp only [hnext]
      omega

/-- Create a realtime asset, signal completion with zero parts received,
then ask for an extension batch. -/
def c8ceOps : List Op :=
  [Op.createAsset aId none none none true, Op.completeRealtime aId]

theorem c8_counterexample :
    (step (run (initState []) c8ceOps) (Op.createRealtimeParts aId)).2.urls
      = [1, 2, 3, 4, 5] ∧
    getA (run (initState []) c8ceOps).issued aId = some [1] ∧
    (1 : Nat) ∈ (step (run (initState []) c8ceOps) (Op.createRealtimeParts aId)).2.urls ∧
    Option.map Asset.numParts
      (getA (step (run (initState []) c8ceOps) (Op.createRealtimeParts aId)).1.assets aId)
      = some 5 := by
  decide

/-- The realtime asset as created by `create_asset` for the C8 witness. -/
def c8Asset : Asset :=
  { name := unknownStem ++ aId, filesize := none, filetype := octetStream,
    numParts := 1, partsReceived := [], isRealtime := true, complete := false,
    nextRealtimePart := none }

theorem c8_witness :
    (Op.completeRealtime aId ∉ [Op.createAsset aId none none none true]) ∧
    getA (run (initState []) [Op.createAsset aId none none none true]).assets aId
      = some c8Asset ∧
    ((∀ fsz : Option Nat, computeNumParts fsz true = 1) ∧
     (createRealtimeParts (run (initState [])
        [Op.createAsset aId none none none true]) aId).2.urls
       = List.range' (c8Asset.numParts + 1) 5 ∧
     getA (run (initState []) [Op.createAsset aId none none none true]).issued aId
       = some (List.range' 1 c8Asset.numParts) ∧
     (∀ q ∈ (createRealtimeParts (run (initState [])
        [Op.createAsset aId none none none true]) aId).2.urls,
       q ∉ List.range' 1 c8Asset.numParts) ∧
     (∃ a', getA (createRealtimeParts (run (initState [])
        [Op.createAsset aId none none none true]) aId).1.assets aId = some a'
       ∧ a'.numParts = c8Asset.numParts + 5)) :=
  ⟨by decide, by decide,
   c8_theorem [] [Op.createAsset aId none none none true] aId c8Asset
     (by decide) (by decide)⟩
